import Mathlib

/-!
Verification development for the `django-sdtm-export` tree-to-table export
engine (`sdtm_export/sdtm_exporter.py`, `sdtm_export/utils.py`,
`sdtm_export/annotators.py`).

The engine is shallowly embedded:
* Python dicts are association lists (`List (String × α)`); first-match
  lookup agrees with dict lookup because Python dict keys are unique
  (uniqueness is carried as an explicit `nodupB` well-formedness side
  condition on visitor outputs).
* The materialized node graph is a `Tree`: each node instance carries its
  runtime type name (`node.__class__.__name__`), an instance id (standing
  for object identity / the `id` attribute), the dict its registered
  visitor returns for it (visitors are pure functions of the node, as the
  engine requires), whether its node type has a `None` child accessor
  (`isLeaf`), and its materialized children list.
* Fallible code returns `Except String`; the strings mirror the Python
  exception messages.
* `pandas`/`numpy` behavior reached by the code (DataFrame construction,
  `sort_values`, `groupby.cumcount`, `to_csv` cell rendering) is external
  to the repository; where it is needed it is modelled from its documented
  behavior, and every such definition says so in its doc string.
-/

namespace SDTM

/-- First-match association-list lookup: the embedding of Python dict
lookup `d[k]` / `d.get(k)` (keys of real dicts are unique, so first match
is the match). -/
def alookup {α : Type} : List (String × α) → String → Option α
  | [], _ => none
  | (k', v) :: rest, k => if k' = k then some v else alookup rest k

/-- Keys of an association list, in order. -/
def keysOf {α : Type} (l : List (String × α)) : List String := l.map (·.1)

/-- Boolean membership in a key list. -/
def memB : List String → String → Bool
  | [], _ => false
  | k' :: ks, k => k' = k || memB ks k

/-- Boolean key-uniqueness check (Python dicts always satisfy it). -/
def nodupB : List String → Bool
  | [] => true
  | k :: ks => !(memB ks k) && nodupB ks

/-- Boolean subset test on key lists. -/
def subsetB (a b : List String) : Bool := a.all (fun k => memB b k)

/-- Boolean set-equality test on key lists. -/
def seteqB (a b : List String) : Bool := subsetB a b && subsetB b a

/-- Python dict merge `{**a, **b}`: keys of `a` in order (values taken
from `b` on collision), then the keys of `b` not already in `a`. -/
def pyMerge {α : Type} (a b : List (String × α)) : List (String × α) :=
  a.map (fun kv =>
    match alookup b kv.1 with
    | some v => (kv.1, v)
    | none => kv)
  ++ b.filter (fun kv => (alookup a kv.1).isNone)

/-- Python dict assignment `d[k] = v`: replace in place when the key is
present, append otherwise. -/
def aset {α : Type} (t : List (String × α)) (k : String) (v : α) :
    List (String × α) :=
  if (alookup t k).isSome then
    t.map (fun kv => if kv.1 = k then (kv.1, v) else kv)
  else t ++ [(k, v)]

/-- A visitor output: Python `dict` from variable oid to raw value
(`_visit_node`'s return type). -/
abbrev Dict (V : Type) := List (String × V)

/-- An intermediate exported table: Python `dict` from column oid to the
column's list of row values (`_export`'s return type). -/
abbrev Table (V : Type) := List (String × List V)

/-- `node_data = {**extra_data, **node_data}` guarded by
`if extra_data:` in `SDTMExporterBase._export`. -/
def mergeIf {V : Type} (extra visit : Dict V) : Dict V :=
  if extra.isEmpty then visit else pyMerge extra visit

/-- `data[k].extend(v)` on a `defaultdict(list)`: append to the column in
place when present, create the column otherwise
(`SDTMExporterBase._export_list`). -/
def dextend {V : Type} (acc : Table V) (k : String) (v : List V) : Table V :=
  if (alookup acc k).isSome then
    acc.map (fun kv => if kv.1 = k then (kv.1, kv.2 ++ v) else kv)
  else acc ++ [(k, v)]

/-- The inner loop of `_export_list`:
`for k, v in node_data.items(): data[k].extend(v)`. -/
def extendTable {V : Type} (acc : Table V) (td : Table V) : Table V :=
  td.foldl (fun a kv => dextend a kv.1 kv.2) acc

/-- The broadcast loop of `_export`:
`for k, v in node_data.items(): child_data[k] = [v] * row_count`. -/
def broadcast {V : Type} (d : Table V) (nd : Dict V) (rc : Nat) : Table V :=
  nd.foldl (fun a kv => aset a kv.1 (List.replicate rc kv.2)) d

/-- The row-count consistency loop of `_export_list`: `row_count` starts
as `None`, takes the first column's length, and every later column must
match it or a `ValueError` is raised. -/
def goRC {V : Type} : List (List V) → Option Nat → Except String (Option Nat)
  | [], rc => .ok rc
  | v :: vs, none => goRC vs (some v.length)
  | v :: vs, some rc =>
    if rc = v.length then goRC vs (some rc)
    else .error "Sibling nodes have differing row counts"

/-- Row-count check over a whole aggregated table
(`_export_list`, lines 342–349). -/
def checkRowCount {V : Type} (d : Table V) : Except String (Option Nat) :=
  goRC (d.map (·.2)) none

/-- A materialized node instance of the configured graph: runtime type
name, instance identity, the (pure) visitor's output for it, whether its
node type's child accessor is `None`, and its normalized children list.
A leaf-type node has no reachable children (`child_attr is None` makes
`_get_children` return `[]`). -/
inductive Tree (V : Type) where
  | mk (ty : String) (nid : Nat) (visit : Dict V) (isLeaf : Bool)
      (children : List (Tree V))

def Tree.ty {V : Type} : Tree V → String
  | .mk ty _ _ _ _ => ty

def Tree.nid {V : Type} : Tree V → Nat
  | .mk _ nid _ _ _ => nid

def Tree.visit {V : Type} : Tree V → Dict V
  | .mk _ _ visit _ _ => visit

def Tree.isLeaf {V : Type} : Tree V → Bool
  | .mk _ _ _ isLeaf _ => isLeaf

def Tree.children {V : Type} : Tree V → List (Tree V)
  | .mk _ _ _ _ cs => cs

mutual

/-- Number of leaf-type node instances reachable from this node. -/
def leaves {V : Type} : Tree V → Nat
  | .mk _ _ _ true _ => 1
  | .mk _ _ _ false cs => leavesList cs

/-- Sum of `leaves` over a children list, in order. -/
def leavesList {V : Type} : List (Tree V) → Nat
  | [] => 0
  | c :: rest => leaves c + leavesList rest

end

mutual

/-- Well-formedness of a materialized graph: every visitor output has
unique keys (it is a Python dict) and leaf-type nodes have no reachable
children (their child accessor is `None`). -/
def wfB {V : Type} : Tree V → Bool
  | .mk _ _ visit isLeaf cs =>
    nodupB (keysOf visit) && (!isLeaf || cs.isEmpty) && wfListB cs

def wfListB {V : Type} : List (Tree V) → Bool
  | [] => true
  | c :: rest => wfB c && wfListB rest

end

mutual

/-- The column set a node's exported table has (as a key list, read as a
set): a leaf contributes its visitor's keys; a branching node with no
reachable leaves vanishes (no columns); otherwise it contributes its
children's columns plus its own visitor's keys. -/
def colSet {V : Type} : Tree V → List String
  | .mk _ _ visit true _ => keysOf visit
  | .mk _ _ visit false cs =>
    if leavesList cs = 0 then [] else colSetList cs ++ keysOf visit

def colSetList {V : Type} : List (Tree V) → List String
  | [] => []
  | c :: rest => colSet c ++ colSetList rest

end

/-- All entries of a list of key sets are set-equal to the first. -/
def sameColsListB : List (List String) → Bool
  | [] => true
  | c :: rest => rest.all (fun d => seteqB d c)

mutual

/-- Column-compatibility of a tree: every leaf's visitor output is
nonempty, and at every branching node all children that still own leaves
produce set-equal column sets.  Under this condition sibling aggregation
is alignment-correct (each column receives exactly one value per leaf
row). -/
def uniformB {V : Type} : Tree V → Bool
  | .mk _ _ visit true _ => !visit.isEmpty
  | .mk _ _ _ false cs =>
    uniformListB cs &&
      sameColsListB ((cs.filter (fun c => leaves c != 0)).map colSet)

def uniformListB {V : Type} : List (Tree V) → Bool
  | [] => true
  | c :: rest => uniformB c && uniformListB rest

end

mutual

/-- Does column key `k0` occur in every reachable leaf's visitor
output? -/
def allLeavesHaveB {V : Type} (k0 : String) : Tree V → Bool
  | .mk _ _ visit true _ => (alookup visit k0).isSome
  | .mk _ _ _ false cs => allLeavesListB k0 cs

def allLeavesListB {V : Type} (k0 : String) : List (Tree V) → Bool
  | [] => true
  | c :: rest => allLeavesHaveB k0 c && allLeavesListB k0 rest

end

mutual

/-- `SDTMExporterBase._export(node, extra_data)`: visit the node, merge
`extra_data` under the node's own output, return a one-row table at a
leaf; otherwise aggregate the children's tables, check row-count
consistency, and broadcast the node's own columns across all rows
(`row_count is None`, i.e. an empty aggregate, skips the broadcast, so a
childless branching node vanishes). -/
def exportNode {V : Type} : Tree V → Dict V → Except String (Table V)
  | .mk _ _ visit isLeaf cs, extra =>
    let nodeData := mergeIf extra visit
    if isLeaf then .ok (nodeData.map (fun kv => (kv.1, [kv.2])))
    else
      match exportChildrenAux cs [] with
      | .error e => .error e
      | .ok d =>
        match checkRowCount d with
        | .error e => .error e
        | .ok none => .ok d
        | .ok (some rc) => .ok (broadcast d nodeData rc)

/-- The aggregation loop of `SDTMExporterBase._export_list`: export each
child with no extra data and extend the accumulated table column-wise. -/
def exportChildrenAux {V : Type} :
    List (Tree V) → Table V → Except String (Table V)
  | [], acc => .ok acc
  | c :: rest, acc =>
    match exportNode c [] with
    | .error e => .error e
    | .ok td => exportChildrenAux rest (extendTable acc td)

/-- The children's individual exported tables, in order (a restatement of
the aggregation loop used to reason about it). -/
def childTables {V : Type} : List (Tree V) → Except String (List (Table V))
  | [] => .ok []
  | c :: rest =>
    match exportNode c [] with
    | .error e => .error e
    | .ok td =>
      match childTables rest with
      | .error e => .error e
      | .ok tds => .ok (td :: tds)

end

/-- `nth l i`: the `i`-th element of a list (row indexing helper). -/
def nth {α : Type} : List α → Nat → Option α
  | [], _ => none
  | a :: _, 0 => some a
  | _ :: l, n + 1 => nth l n

/-- Option short-circuit: first defined value wins. -/
def oor {α : Type} : Option α → Option α → Option α
  | some v, _ => some v
  | none, b => b

/-- Column-wise concatenation of two optional columns (absent on both
sides stays absent): the lookup-level effect of `extendTable`. -/
def mergeColOpt {V : Type} : Option (List V) → Option (List V) →
    Option (List V)
  | none, none => none
  | a, b => some (a.getD [] ++ b.getD [])

mutual

/-- Reference row semantics of the aggregation: the value of column `k`
in row `i` of a node's exported table.  The node's effective own columns
(inherited `extra` overridden by its own visitor output) win; otherwise
the value comes from the child that owns row `i`.  Along a root-to-leaf
path this makes the shallowest node that declares `k` win, which is what
the bottom-up broadcast of `_export` produces. -/
def rowVal {V : Type} : Tree V → Dict V → Nat → String → Option V
  | .mk _ _ visit true _, extra, _, k => alookup (mergeIf extra visit) k
  | .mk _ _ visit false cs, extra, i, k =>
    match alookup (mergeIf extra visit) k with
    | some v => some v
    | none => rowValList cs i k

def rowValList {V : Type} : List (Tree V) → Nat → String → Option V
  | [], _, _ => none
  | c :: rest, i, k =>
    if i < leaves c then rowVal c [] i k else rowValList rest (i - leaves c) k

end

/-- Resolve a child-index path from a node: returns the strict ancestors
of the target (top-down, starting with the node itself) and the target. -/
def chainTo {V : Type} : Tree V → List Nat → Option (List (Tree V) × Tree V)
  | t, [] => some ([], t)
  | t, i :: p =>
    match nth t.children i with
    | none => none
    | some c =>
      match chainTo c p with
      | none => none
      | some (ancs, tgt) => some (t :: ancs, tgt)

/-- Number of leaf rows a full export emits before the subtree at the
given path (leaves of earlier siblings at every step). -/
def leavesBefore {V : Type} : Tree V → List Nat → Nat
  | _, [] => 0
  | t, i :: p =>
    leavesList (t.children.take i) +
      match nth t.children i with
      | some c => leavesBefore c p
      | none => 0

/-- The ancestor-replay loop of `SDTMExporterBase._export_subtree`:
`for n in reversed(path_to_root): parent_data = {**visit(n), **parent_data}`
over the ancestors listed top-down — already-accumulated (shallower)
entries override the current (deeper) visitor's entries. -/
def replay {V : Type} (ds : List (Dict V)) : Dict V :=
  ds.foldl (fun acc d => pyMerge d acc) []

/-- First-wins lookup down a list of dicts (the shallowest dict that
defines the key wins). -/
def chainLook {V : Type} : List (Dict V) → String → Option V
  | [], _ => none
  | d :: ds, k =>
    match alookup d k with
    | some v => some v
    | none => chainLook ds k

/-- `SDTMExporterBase._export_subtree`: refuse the root (its parent
accessor yields `None`), build the ancestor chain by following parent
accessors (in the embedded materialized graph the parent chain of the
node at a path is exactly the path's prefix, and its top is the
exporter's root, so the `path_to_root[-1]` identity check always
passes), replay the ancestors' visitors top-down, and export the target
with the accumulated context. -/
def exportSubtree {V : Type} (root : Tree V) (p : List Nat) :
    Except String (Table V) :=
  match chainTo root p with
  | none => .error "node not found"
  | some ([], _) => .error "Cannot export subtree for a root node"
  | some (ancs, tgt) => exportNode tgt (replay (ancs.map Tree.visit))

/-- Row count of a table all of whose columns have equal length (the
number of rows of the DataFrame built from it). -/
def rowCount {V : Type} : Table V → Nat
  | [] => 0
  | c :: _ => c.2.length

/-- Whether the target's own visitor output shadows any strict ancestor's
visitor output (a key declared by both). -/
def noShadowB {V : Type} (tgt : Tree V) (ancs : List (Tree V)) : Bool :=
  (keysOf tgt.visit).all
    (fun k => ancs.all (fun a => !(memB (keysOf a.visit) k)))

/-- Raw Python values that flow through the exporter: `None`, booleans,
strings, integers, `datetime.date` and `datetime.datetime` values. -/
inductive PyVal where
  | none
  | bool (b : Bool)
  | str (s : String)
  | int (n : Int)
  | date (y m d : Nat)
  | datetime (y mo d h mi s : Nat)
  deriving DecidableEq

/-- Left-pad a numeral with zeroes to the given width. -/
def padNum (width n : Nat) : String :=
  let s := toString n
  (List.replicate (width - s.length) '0').asString ++ s

/-- `date.isoformat()` / the date part of `datetime.isoformat()`. -/
def isoDate (y m d : Nat) : String :=
  padNum 4 y ++ "-" ++ padNum 2 m ++ "-" ++ padNum 2 d

/-- `value.isoformat()` for the date-like values. -/
def isoformat : PyVal → String
  | .date y m d => isoDate y m d
  | .datetime y mo d h mi s =>
    isoDate y mo d ++ "T" ++ padNum 2 h ++ ":" ++ padNum 2 mi ++ ":" ++
      padNum 2 s
  | _ => ""

/-- Python `value == s` for a string literal `s`: only a string compares
equal to a string (booleans, ints and dates never do). -/
def pyEqStr (v : PyVal) (s : String) : Bool :=
  match v with
  | .str s' => s' = s
  | _ => false

/-- `sdtm_export.utils.format_value`: `None` becomes the empty string,
`"Yes"` or `True` becomes `"Y"`, `"No"` or `False` becomes `"N"`, dates
and datetimes become their ISO string, everything else is returned
unchanged.  (Defined in the repository but never invoked by the export
paths.) -/
def format_value (value : PyVal) : PyVal :=
  if value = .none then .str ""
  else if pyEqStr value "Yes" || value = .bool true then .str "Y"
  else if pyEqStr value "No" || value = .bool false then .str "N"
  else
    match value with
    | .date y m d => .str (isoformat (.date y m d))
    | .datetime y mo d h mi s => .str (isoformat (.datetime y mo d h mi s))
    | v => v

/-- The per-cell formatting rule exactly as the specification words it
(for comparison with `format_value`): `None` → empty string; boolean or
case-matched "Yes"/"No" → "Y"/"N"; date/datetime → ISO-8601 string; else
the value unchanged. -/
def formatValueSpec (value : PyVal) : PyVal :=
  match value with
  | .none => .str ""
  | .bool true => .str "Y"
  | .bool false => .str "N"
  | .str s => if s = "Yes" then .str "Y" else if s = "No" then .str "N"
      else .str s
  | .date y m d => .str (isoformat (.date y m d))
  | .datetime y mo d h mi s => .str (isoformat (.datetime y mo d h mi s))
  | v => v

/-- Modelled from the documented behavior of the external
`DataFrame.to_csv` (the repository's `_export_to_csv` hands the
post-processed frame straight to it): a missing value (`None`) renders as
the default empty `na_rep`, every other cell is rendered with `str()` —
booleans as `True`/`False`, integers as their numeral, strings
unchanged, `date` as its ISO form and `datetime` with a space
separator. -/
def toCsvCell : PyVal → String
  | .none => ""
  | .bool true => "True"
  | .bool false => "False"
  | .str s => s
  | .int n => toString n
  | .date y m d => isoDate y m d
  | .datetime y mo d h mi s =>
    isoDate y mo d ++ " " ++ padNum 2 h ++ ":" ++ padNum 2 mi ++ ":" ++
      padNum 2 s

/-- An output variable of the schema enum: `oid`, member name,
`cdisc_label`, `type` and `length` (`sdtm_export.variables.BaseVariables`
members). -/
structure Variable where
  oid : String
  name : String
  cdiscLabel : String
  vtype : String
  vlength : String

/-- The `sort_by` configuration: unset, a single variable oid, or an
ordered list of oids. -/
inductive SortBy where
  | none
  | one (k : String)
  | many (ks : List String)

/-- Python truthiness of `sort_by` (`if not self.sort_by`): `None`, the
empty string and the empty list are falsy. -/
def sortByFalsy : SortBy → Bool
  | .none => true
  | .one k => k.isEmpty
  | .many ks => ks.isEmpty

/-- The key list `sort_values`/`groupby` receive. -/
def sortKeys : SortBy → List String
  | .none => []
  | .one k => [k]
  | .many ks => ks

/-- The `sort_order` configuration: unset (`None`), a scalar string, or a
list of strings parallel to `sort_by`. -/
inductive PySortOrder where
  | none
  | str (s : String)
  | list (l : List String)

/-- The `ascending` argument `_sort` computes:
`self.sort_order != "desc" if not isinstance(self.sort_order, list) else
[o != "desc" for o in self.sort_order]` (note `None != "desc"` is
`True`). -/
def sortDirection : PySortOrder → Sum Bool (List Bool)
  | .none => .inl true
  | .str s => .inl (s != "desc")
  | .list l => .inr (l.map (fun o => o != "desc"))

/-- A configured `SequenceAnnotator`: its target member name (`header`)
and its optional `group_by` override. -/
structure AnnSpec where
  header : String
  groupBy : Option SortBy

/-- The `annotators` configuration: unset, a single annotator, or a
list. -/
inductive Annotators where
  | none
  | one (a : AnnSpec)
  | many (l : List AnnSpec)

/-- Python truthiness of `annotators` (`if self.annotators:`): `None` and
the empty list are falsy. -/
def annotatorsFalsy : Annotators → Bool
  | .none => true
  | .many [] => true
  | _ => false

/-- The exporter's class-level configuration. `domain` is a plain string
(falsy when `None` or empty); `domainVariable` and `label` stand for the
configured enum member's oid / the label string, `None` when unset. -/
structure Config where
  domain : Option String
  domainVariable : Option String
  label : Option String
  constants : List (String × PyVal)
  schema : List Variable
  sortBy : SortBy
  sortOrder : PySortOrder
  annotators : Annotators
  disclaimer : Option String

/-- `not self.domain or not self.domain_variable` in
`SDTMExporterBase.export`. -/
def domainInvalid (cfg : Config) : Bool :=
  (match cfg.domain with
   | Option.none => true
   | some s => s.isEmpty) || cfg.domainVariable.isNone

/-- The post-processed table (the DataFrame, column-major, all columns of
equal length). -/
abbrev DF := Table PyVal

/-- Row `i` of a frame, in the frame's column order (cells of a
well-formed frame are always present; absent cells are totalized to
`None`). -/
def rowAt (df : DF) (i : Nat) : Dict PyVal :=
  df.map (fun c => (c.1, (nth c.2 i).getD .none))

/-- All rows of a frame in order. -/
def dfRows (df : DF) : List (Dict PyVal) :=
  (List.range (rowCount df)).map (rowAt df)

/-- Rebuild a frame with the given column order from a row list. -/
def dfOfRows (colNames : List String) (rows : List (Dict PyVal)) : DF :=
  colNames.map (fun k => (k, rows.map (fun r => (alookup r k).getD .none)))

/-- Stable insertion of a row before the first element that does not
strictly precede it. -/
def insertRow {α : Type} (lt : α → α → Bool) (x : α) : List α → List α
  | [] => [x]
  | y :: ys => if lt y x then y :: insertRow lt x ys else x :: y :: ys

/-- Stable sort by a strict precedence predicate: ties keep their prior
relative order. -/
def stableSort {α : Type} (lt : α → α → Bool) : List α → List α
  | [] => []
  | x :: xs => insertRow lt x (stableSort lt xs)

/-- Lexicographic strict row precedence over the configured keys, each
key honoring its own ascending flag (a descending key compares the two
cells swapped). `lt` is the cell ordering of the external sort. -/
def rowLt (lt : PyVal → PyVal → Bool) :
    List (String × Bool) → Dict PyVal → Dict PyVal → Bool
  | [], _, _ => false
  | (k, asc) :: rest, r1, r2 =>
    let a := (alookup r1 k).getD .none
    let b := (alookup r2 k).getD .none
    let x := if asc then a else b
    let y := if asc then b else a
    if lt x y then true
    else if lt y x then false
    else rowLt lt rest r1 r2

/-- `SDTMExporterBase._sort`: skipped entirely when `sort_by` is falsy;
otherwise computes the per-key ascending flags from `sort_order` and
hands rows to the external `sort_values`.  The external sort is modelled
as a stable per-key-directed lexicographic sort over the documented
pandas comparison (`lt` abstracts the cell ordering; a ragged
`ascending` list is the pandas `ValueError`). -/
def applySort (lt : PyVal → PyVal → Bool) (df : DF) (sb : SortBy)
    (so : PySortOrder) : Except String DF :=
  if sortByFalsy sb then .ok df
  else
    let ks := sortKeys sb
    match sortDirection so with
    | .inl b =>
      .ok (dfOfRows (df.map (·.1))
        (stableSort (rowLt lt (ks.map (fun k => (k, b)))) (dfRows df)))
    | .inr bs =>
      if bs.length = ks.length then
        .ok (dfOfRows (df.map (·.1))
          (stableSort (rowLt lt (ks.zip bs)) (dfRows df)))
      else .error "Length of ascending must match length of by"

/-- `data[key] = value` for a scalar: broadcast across the frame's
current row count (`_add_domain` / `_add_constants`). -/
def setScalar (df : DF) (k : String) (v : PyVal) : DF :=
  aset df k (List.replicate (rowCount df) v)

/-- `SDTMExporterBase._add_constants`. -/
def addConstants (df : DF) (consts : List (String × PyVal)) : DF :=
  consts.foldl (fun d kv => setScalar d kv.1 kv.2) df

/-- `SDTMExporterBase._add_missing_columns`: every schema variable absent
from the frame is added with the empty string in every row. -/
def addMissing (df : DF) (schema : List Variable) : DF :=
  schema.foldl
    (fun d v =>
      if (alookup d v.oid).isSome then d else setScalar d v.oid (.str ""))
    df

/-- The group key of a row under the configured grouping columns. -/
def keyTuple (ks : List String) (r : Dict PyVal) : List PyVal :=
  ks.map (fun k => (alookup r k).getD .none)

/-- Modelled from the documented behavior of the external
`groupby(...).cumcount() + 1` reached by `SequenceAnnotator.annotate`:
each row receives one plus the number of earlier rows (in current row
order) with the same group key. -/
def cumcountAux (ks : List String) :
    List (Dict PyVal) → List (List PyVal) → List Nat
  | [], _ => []
  | r :: rest, seen =>
    (seen.count (keyTuple ks r) + 1) :: cumcountAux ks rest (keyTuple ks r :: seen)

/-- `SequenceAnnotator.annotate`: group by `self.group_by or
sdtm_exporter.sort_by`; require a schema member named after the
annotator's header (else `InvalidConfigurationError`); write the 1-based
in-group counter, as strings, to that member's oid column. -/
def seqAnnotate (schema : List Variable) (sb : SortBy) (a : AnnSpec)
    (df : DF) : Except String DF :=
  let gb := match a.groupBy with
    | some g => g
    | Option.none => sb
  match schema.find? (fun v => v.name = a.header) with
  | some v =>
    .ok (aset df v.oid
      ((cumcountAux (sortKeys gb) (dfRows df) []).map
        (fun n => PyVal.str (toString n))))
  | Option.none => .error "a header must be set on the annotator"

/-- `SDTMExporterBase._annotate`: skipped when `annotators` is falsy;
raises `InvalidConfigurationError` when `sort_by` is falsy; otherwise
runs the single annotator or each annotator of the list in order. -/
def annotateStep (cfg : Config) (df : DF) : Except String DF :=
  if annotatorsFalsy cfg.annotators then .ok df
  else if sortByFalsy cfg.sortBy then .error "sort by must be set"
  else
    match cfg.annotators with
    | .none => .ok df
    | .one a => seqAnnotate cfg.schema cfg.sortBy a df
    | .many l =>
      l.foldlM (fun d a => seqAnnotate cfg.schema cfg.sortBy a d) df

/-- `data[[v.oid for v in self.variables]]`: select the schema columns in
schema order (a missing column is the pandas `KeyError`). -/
def selectCols (df : DF) (ks : List String) : Except String DF :=
  if ks.all (fun k => (alookup df k).isSome) then
    .ok (ks.map (fun k => (k, (alookup df k).getD [])))
  else .error "KeyError"

/-- `SDTMExporterBase._post_process`: set the domain column, inject the
constants, materialize missing schema columns as empty strings, sort,
annotate, and reorder to exactly the schema's columns. -/
def postProcess (lt : PyVal → PyVal → Bool) (cfg : Config) (df0 : DF) :
    Except String DF :=
  let d1 := setScalar df0 (cfg.domainVariable.getD "")
    (.str (cfg.domain.getD ""))
  let d2 := addConstants d1 cfg.constants
  let d3 := addMissing d2 cfg.schema
  match applySort lt d3 cfg.sortBy cfg.sortOrder with
  | .error e => .error e
  | .ok d4 =>
    match annotateStep cfg d4 with
    | .error e => .error e
    | .ok d5 => selectCols d5 (cfg.schema.map (·.oid))

mutual

/-- `_export` instrumented with the order of `_visit_node` calls: the
traversal trace (each visited node instance, in visit order) alongside
the result. -/
def exportNodeT {V : Type} :
    Tree V → Dict V → List (Tree V) × Except String (Table V)
  | t@(.mk _ _ visit isLeaf cs), extra =>
    let nodeData := mergeIf extra visit
    if isLeaf then ([t], .ok (nodeData.map (fun kv => (kv.1, [kv.2]))))
    else
      match exportChildrenAuxT cs [] with
      | (tr, .error e) => (t :: tr, .error e)
      | (tr, .ok d) =>
        (t :: tr,
          match checkRowCount d with
          | .error e => .error e
          | .ok Option.none => .ok d
          | .ok (some rc) => .ok (broadcast d nodeData rc))

/-- `_export_list` instrumented with the visit trace. -/
def exportChildrenAuxT {V : Type} :
    List (Tree V) → Table V → List (Tree V) × Except String (Table V)
  | [], acc => ([], .ok acc)
  | c :: rest, acc =>
    match exportNodeT c [] with
    | (tr, .error e) => (tr, .error e)
    | (tr, .ok td) =>
      match exportChildrenAuxT rest (extendTable acc td) with
      | (tr2, r) => (tr ++ tr2, r)

end

/-- `SDTMExporterBase.export()` with no subtree node, instrumented with
the visit trace: configuration validation of `domain`/`domain_variable`
happens before any node is visited; post-processing (including the
`_annotate` checks) happens after the whole traversal. -/
def exportFullT (lt : PyVal → PyVal → Bool) (cfg : Config)
    (t : Tree PyVal) : List (Tree PyVal) × Except String DF :=
  if domainInvalid cfg then
    ([], .error "domain and domain_variable must be set")
  else
    match exportNodeT t [] with
    | (tr, .error e) => (tr, .error e)
    | (tr, .ok T) => (tr, postProcess lt cfg T)

/-- The per-export-call node cache, keyed by type name; an entry holds
the instance id of the most recently visited node of that type (`None`
before any visit). -/
abbrev Cache := List (String × Option Nat)

/-- An exporter instance: the registered type names, the root it was
constructed with, and its node cache.  The cache is created by
`__init__` (`_initialize_node_cache`) — not by `export` — so it persists
across export calls on the same instance. -/
structure Exporter (V : Type) where
  types : List String
  root : Tree V
  cache : Cache

/-- `SDTMExporterBase.__init__`: every registered type maps to `None`,
then the root's runtime type maps to the root itself. -/
def mkExporter {V : Type} (types : List String) (root : Tree V) :
    Exporter V :=
  ⟨types, root, aset (types.map (fun ty => (ty, Option.none))) root.ty
    (some root.nid)⟩

/-- One `export()` call on an exporter instance: runs the validated,
traced full export from the instance's root, and applies each
`_update_node_cache` of the traversal to the instance's existing cache
(the cache is not re-initialized by `export`). -/
def exportCall (lt : PyVal → PyVal → Bool) (cfg : Config)
    (E : Exporter PyVal) :
    List (Tree PyVal) × Except String DF × Exporter PyVal :=
  let (tr, res) := exportFullT lt cfg E.root
  (tr, res,
    ⟨E.types, E.root,
      tr.foldl (fun c n => aset c n.ty (some n.nid)) E.cache⟩)

/-- `SDTMExporterBase.get_study_id`: reads the cache entry for the type
named exactly `"Study"` (`self._node_cache["Study"]` — a `KeyError` when
no such type is registered), then `study.id if study else None`. -/
def getStudyId (c : Cache) : Except String (Option Nat) :=
  match alookup c "Study" with
  | Option.none => .error "KeyError: Study"
  | some inst => .ok inst

/-- One entry of the Dataset-JSON `items` array. -/
structure JsonItem where
  oid : String
  name : String
  label : String
  itype : String
  ilength : String

/-- The `items` entry built for a schema variable. -/
def mkItem (v : Variable) : JsonItem :=
  ⟨"IT." ++ v.oid, v.name, v.cdiscLabel, v.vtype, v.vlength⟩

/-- The structured document `export_to_json` builds (the fields of its
`clinicalData.itemGroupData` payload plus the two study identifiers). -/
structure JsonOut where
  studyOID : Option Nat
  metaDataVersionOID : Option Nat
  igKey : String
  name : String
  label : String
  records : Nat
  items : List JsonItem
  itemData : List (List PyVal)

/-- `SDTMExporterBase.export_to_json`, instrumented with the visit trace:
require `label` (checked before any traversal), run the export, reorder
to schema order, and emit the document with both study identifiers drawn
from `get_study_id` against the post-traversal cache. -/
def exportToJsonT (lt : PyVal → PyVal → Bool) (cfg : Config)
    (E : Exporter PyVal) : List (Tree PyVal) × Except String JsonOut :=
  if cfg.label.isNone then
    ([], .error "label attribute is required for json export")
  else
    match exportCall lt cfg E with
    | (tr, .error e, _) => (tr, .error e)
    | (tr, .ok df, E2) =>
      (tr,
        match selectCols df (cfg.schema.map (·.oid)) with
        | .error e => .error e
        | .ok df2 =>
          match getStudyId E2.cache with
          | .error e => .error e
          | .ok sid =>
            .ok
              ⟨sid, sid, "IG." ++ cfg.domain.getD "", cfg.domain.getD "",
                cfg.label.getD "", rowCount df2, cfg.schema.map mkItem,
                (dfRows df2).map (fun r => r.map (·.2))⟩)

/-- The disclaimer row `_write_csv_disclaimer` emits
(`if self.csv_export_disclaimer_text:` — `None` and the empty string are
falsy and suppress it). -/
def disclaimerRows (cfg : Config) : List (List String) :=
  match cfg.disclaimer with
  | some s => if s.isEmpty then [] else [[s]]
  | Option.none => []

/-- `SDTMExporterBase._export_to_csv` as the list of CSV records it
writes: the optional disclaimer line, the header row of schema oids, and
the post-processed rows rendered cell-by-cell by the external `to_csv`
(`toCsvCell`) — `format_value` is not applied anywhere on this path. -/
def exportToCsvLines (lt : PyVal → PyVal → Bool) (cfg : Config)
    (t : Tree PyVal) : Except String (List (List String)) :=
  match exportFullT lt cfg t with
  | (_, .error e) => .error e
  | (_, .ok df) =>
    .ok (disclaimerRows cfg ++ [cfg.schema.map (·.oid)] ++
      (dfRows df).map (fun r => r.map (fun kv => toCsvCell kv.2)))

/-- The facts the row-count induction carries for one exported child
table: unique column keys, every column as long as the child's leaf
count, presence of a common leaf key when the child owns leaves, and an
empty table when it owns none. -/
def childFacts {V : Type} (k0 : String) (c : Tree V) (td : Table V) :
    Prop :=
  nodupB (keysOf td) = true ∧
  (∀ col ∈ td, col.2.length = leaves c) ∧
  (0 < leaves c → (alookup td k0).isSome = true) ∧
  (leaves c = 0 → td = [])

/-- The facts the subtree-refinement induction carries for one exported
table: unique column keys; a column exists exactly for the keys of the
node's column set (plus, at the top call, the inherited keys); every
column is one entry per leaf; and entry `i` of a column is the reference
row value (shallowest declaring node wins) of the `i`-th leaf. -/
def uFacts {V : Type} (extra : Dict V) (c : Tree V) (td : Table V) :
    Prop :=
  nodupB (keysOf td) = true ∧
  (∀ k, (alookup td k).isSome = true ↔
    (0 < leaves c ∧
      (memB (colSet c) k = true ∨ memB (keysOf extra) k = true))) ∧
  (∀ k col, alookup td k = some col → col.length = leaves c) ∧
  (∀ k col i, alookup td k = some col → i < leaves c →
    nth col i = rowVal c extra i k)

/-! ### Association-list lemmas -/

theorem alookup_eq_none {α : Type} :
    ∀ (l : List (String × α)) (k : String),
      alookup l k = none ↔ memB (keysOf l) k = false
  | [], k => by simp [alookup, keysOf, memB]
  | (k', v) :: rest, k => by
    by_cases h : k' = k
    · simp [alookup, keysOf, memB, h]
    · simp [alookup, keysOf, memB, h, alookup_eq_none rest k]

theorem alookup_isSome_eq_memB {α : Type} (l : List (String × α))
    (k : String) : (alookup l k).isSome = memB (keysOf l) k := by
  cases hm : memB (keysOf l) k with
  | false => simp [Option.isSome, (alookup_eq_none l k).2 hm]
  | true =>
    cases hl : alookup l k with
    | none => rw [(alookup_eq_none l k).1 hl] at hm; exact absurd hm (by simp)
    | some v => simp [Option.isSome]

theorem oor_none_right {α : Type} (a : Option α) : oor a none = a := by
  cases a <;> simp [oor]

theorem oor_assoc {α : Type} (a b c : Option α) :
    oor (oor a b) c = oor a (oor b c) := by
  cases a <;> cases b <;> simp [oor]

theorem alookup_append {α : Type} :
    ∀ (l1 l2 : List (String × α)) (k : String),
      alookup (l1 ++ l2) k = oor (alookup l1 k) (alookup l2 k)
  | [], l2, k => by simp [alookup, oor]
  | (k', v) :: rest, l2, k => by
    by_cases h : k' = k
    · simp [alookup, h, oor]
    · simp [alookup, h, alookup_append rest l2 k]

theorem alookup_pyMerge_mapped {α : Type} (b : List (String × α)) :
    ∀ (a : List (String × α)) (k : String),
      alookup
        (a.map (fun kv =>
          match alookup b kv.1 with
          | some v => (kv.1, v)
          | none => kv)) k =
      (alookup a k).map (fun v =>
        match alookup b k with
        | some w => w
        | none => v)
  | [], k => by simp [alookup]
  | (k', v) :: rest, k => by
    by_cases h : k' = k
    · subst h
      cases hb : alookup b k' <;> simp [alookup, hb]
    · cases hb : alookup b k' <;>
        simp [alookup, hb, h, alookup_pyMerge_mapped b rest k]

theorem alookup_pyMerge_filtered {α : Type} (a : List (String × α)) :
    ∀ (b : List (String × α)) (k : String),
      alookup (b.filter (fun kv => (alookup a kv.1).isNone)) k =
        if (alookup a k).isNone then alookup b k else none
  | [], k => by simp [alookup]
  | (k', v) :: rest, k => by
    by_cases h : k' = k
    · subst h
      cases ha : alookup a k' <;>
        simp [alookup, List.filter, ha, alookup_pyMerge_filtered a rest k']
    · cases ha : alookup a k' <;>
        cases hb : (alookup a k').isNone <;>
        simp_all [alookup, List.filter, alookup_pyMerge_filtered a rest k]

theorem alookup_pyMerge {α : Type} (a b : List (String × α)) (k : String) :
    alookup (pyMerge a b) k = oor (alookup b k) (alookup a k) := by
  rw [pyMerge, alookup_append, alookup_pyMerge_mapped b a k,
    alookup_pyMerge_filtered a b k]
  cases ha : alookup a k <;> cases hb : alookup b k <;> simp [oor]

theorem alookup_mergeIf {V : Type} (extra visit : Dict V) (k : String) :
    alookup (mergeIf extra visit) k =
      oor (alookup visit k) (alookup extra k) := by
  rw [mergeIf]
  by_cases h : extra.isEmpty
  · have : extra = [] := by cases extra <;> simp_all [List.isEmpty]
    subst this
    simp [alookup, oor_none_right]
  · simp [h, alookup_pyMerge]

theorem alookup_cons {α : Type} (a : String) (b : α)
    (l : List (String × α)) (k : String) :
    alookup ((a, b) :: l) k = if a = k then some b else alookup l k := rfl

theorem alookup_map_update {α : Type} (k : String) (f : α → α) :
    ∀ (t : List (String × α)) (k' : String),
      alookup (t.map (fun kv => if kv.1 = k then (kv.1, f kv.2) else kv))
          k' =
        if k' = k then (alookup t k).map f else alookup t k'
  | [], k' => by by_cases h : k' = k <;> simp [alookup, h]
  | (k0, v0) :: rest, k' => by
    by_cases h1 : k0 = k
    · subst h1
      by_cases h0 : k0 = k'
      · subst h0
        simp [alookup_cons]
      · have h0' : ¬ k' = k0 := fun hh => h0 hh.symm
        simp [alookup_cons, h0, h0', alookup_map_update k0 f rest k']
    · by_cases h0 : k0 = k'
      · subst h0
        have h1' : ¬ k0 = k := h1
        simp [alookup_cons, h1']
      · have h0' : ¬ k' = k0 := fun hh => h0 hh.symm
        simp [alookup_cons, h0, h0', h1, alookup_map_update k f rest k']

theorem alookup_aset {α : Type} (t : List (String × α)) (k : String)
    (v : α) (k' : String) :
    alookup (aset t k v) k' = if k' = k then some v else alookup t k' := by
  rw [aset]
  by_cases hp : (alookup t k).isSome
  · rw [if_pos hp, alookup_map_update k (fun _ => v) t k']
    by_cases h : k' = k
    · cases hl : alookup t k with
      | none => rw [hl] at hp; simp [Option.isSome] at hp
      | some w => simp [h, hl]
    · simp [h]
  · rw [if_neg hp, alookup_append]
    by_cases h : k' = k
    · subst h
      cases hl : alookup t k' with
      | none => simp [alookup, oor]
      | some w => rw [hl] at hp; simp [Option.isSome] at hp
    · have h' : ¬ k = k' := fun hh => h hh.symm
      simp [alookup, h, h', oor_none_right]

theorem alookup_dextend {V : Type} (t : Table V) (k : String)
    (v : List V) (k' : String) :
    alookup (dextend t k v) k' =
      if k' = k then some ((alookup t k).getD [] ++ v)
      else alookup t k' := by
  rw [dextend]
  by_cases hp : (alookup t k).isSome
  · rw [if_pos hp, alookup_map_update k (fun w => w ++ v) t k']
    by_cases h : k' = k
    · cases hl : alookup t k with
      | none => rw [hl] at hp; simp [Option.isSome] at hp
      | some w => simp [h, hl]
    · simp [h]
  · rw [if_neg hp, alookup_append]
    by_cases h : k' = k
    · subst h
      cases hl : alookup t k' with
      | none => simp [alookup, oor]
      | some w => rw [hl] at hp; simp [Option.isSome] at hp
    · have h' : ¬ k = k' := fun hh => h hh.symm
      simp [alookup, h, h', oor_none_right]

theorem memB_iff_mem : ∀ (ks : List String) (k : String),
    memB ks k = true ↔ k ∈ ks
  | [], k => by simp [memB]
  | k' :: ks, k => by
    by_cases h : k' = k
    · simp [memB, h]
    · have h' : ¬ k = k' := fun hh => h hh.symm
      simp [memB, h, h', memB_iff_mem ks k]

theorem memB_append (a b : List String) (k : String) :
    memB (a ++ b) k = (memB a k || memB b k) := by
  induction a with
  | nil => simp [memB]
  | cons k' rest ih => by_cases h : k' = k <;> simp [memB, h, ih]

theorem keysOf_append {α : Type} (a b : List (String × α)) :
    keysOf (a ++ b) = keysOf a ++ keysOf b := by
  simp [keysOf]

theorem oor_isSome {α : Type} (a b : Option α) :
    (oor a b).isSome = (a.isSome || b.isSome) := by
  cases a <;> simp [oor]

theorem memB_keys_pyMerge {α : Type} (a b : List (String × α))
    (k : String) :
    memB (keysOf (pyMerge a b)) k =
      (memB (keysOf a) k || memB (keysOf b) k) := by
  rw [← alookup_isSome_eq_memB, alookup_pyMerge, oor_isSome,
    alookup_isSome_eq_memB, alookup_isSome_eq_memB, Bool.or_comm]

theorem keysOf_map_keyfix {α β : Type} (g : String × α → String × β)
    (hg : ∀ kv, (g kv).1 = kv.1) :
    ∀ (t : List (String × α)), keysOf (t.map g) = keysOf t
  | [] => rfl
  | kv :: rest => by
    have h1 := keysOf_map_keyfix g hg rest
    simp only [keysOf] at h1 ⊢
    simp only [List.map_cons]
    rw [hg kv, h1]

theorem nodupB_append_singleton :
    ∀ (ks : List String) (k : String), nodupB ks = true →
      memB ks k = false → nodupB (ks ++ [k]) = true
  | [], k, _, _ => by simp [nodupB, memB]
  | k' :: ks, k, hnd, hm => by
    rw [nodupB, Bool.and_eq_true] at hnd
    rw [memB] at hm
    have hm1 : (decide (k' = k)) = false := by
      cases ha : (decide (k' = k) : Bool)
      · rfl
      · rw [ha] at hm; simp at hm
    have hm2 : memB ks k = false := by
      cases hb : memB ks k
      · rfl
      · rw [hb] at hm; simp at hm
    have hk : ¬ (k = k') := by
      intro hh
      rw [hh] at hm1
      simp at hm1
    have hleft : memB ks k' = false := by
      cases hmb : memB ks k'
      · rfl
      · rw [hmb] at hnd; exact absurd hnd.1 (by simp)
    rw [List.cons_append, nodupB, memB_append]
    have hsingle : memB [k] k' = false := by simp [memB, hk]
    rw [hleft, hsingle]
    simp only [Bool.or_false, Bool.not_false, Bool.true_and]
    exact nodupB_append_singleton ks k hnd.2 hm2

theorem nodupB_keys_aset {α : Type} (t : List (String × α)) (k : String)
    (v : α) (h : nodupB (keysOf t) = true) :
    nodupB (keysOf (aset t k v)) = true := by
  rw [aset]
  by_cases hp : (alookup t k).isSome
  · rw [if_pos hp,
      keysOf_map_keyfix _ (fun kv => by by_cases hk : kv.1 = k <;> simp [hk])]
    exact h
  · rw [if_neg hp, keysOf_append]
    have hm : memB (keysOf t) k = false := by
      have := alookup_isSome_eq_memB t k
      cases hmm : memB (keysOf t) k
      · rfl
      · rw [hmm] at this; exact absurd this hp
    simpa [keysOf] using nodupB_append_singleton (keysOf t) k h hm

theorem nodupB_keys_dextend {V : Type} (t : Table V) (k : String)
    (v : List V) (h : nodupB (keysOf t) = true) :
    nodupB (keysOf (dextend t k v)) = true := by
  rw [dextend]
  by_cases hp : (alookup t k).isSome
  · rw [if_pos hp,
      keysOf_map_keyfix _ (fun kv => by by_cases hk : kv.1 = k <;> simp [hk])]
    exact h
  · rw [if_neg hp, keysOf_append]
    have hm : memB (keysOf t) k = false := by
      have := alookup_isSome_eq_memB t k
      cases hmm : memB (keysOf t) k
      · rfl
      · rw [hmm] at this; exact absurd this hp
    simpa [keysOf] using nodupB_append_singleton (keysOf t) k h hm

theorem nodupB_keys_broadcast {V : Type} :
    ∀ (nd : Dict V) (d : Table V) (rc : Nat),
      nodupB (keysOf d) = true → nodupB (keysOf (broadcast d nd rc)) = true
  | [], d, rc, h => h
  | kv :: rest, d, rc, h =>
    nodupB_keys_broadcast rest (aset d kv.1 (List.replicate rc kv.2)) rc
      (nodupB_keys_aset d kv.1 _ h)

theorem nodupB_keys_extendTable {V : Type} :
    ∀ (td : Table V) (acc : Table V),
      nodupB (keysOf acc) = true →
      nodupB (keysOf (extendTable acc td)) = true
  | [], acc, h => h
  | kv :: rest, acc, h =>
    nodupB_keys_extendTable rest (dextend acc kv.1 kv.2)
      (nodupB_keys_dextend acc kv.1 kv.2 h)

theorem alookup_broadcast {V : Type} :
    ∀ (nd : Dict V) (d : Table V) (rc : Nat) (k : String),
      nodupB (keysOf nd) = true →
      alookup (broadcast d nd rc) k =
        (match alookup nd k with
         | some v => some (List.replicate rc v)
         | none => alookup d k)
  | [], d, rc, k, _ => by simp [broadcast, alookup]
  | (k0, v0) :: rest, d, rc, k, h => by
    simp only [keysOf, List.map, nodupB, Bool.and_eq_true,
      Bool.not_eq_true'] at h
    have hrec := alookup_broadcast rest
      (aset d k0 (List.replicate rc v0)) rc k h.2
    have hstep : broadcast d ((k0, v0) :: rest) rc =
        broadcast (aset d k0 (List.replicate rc v0)) rest rc := rfl
    rw [hstep, hrec]
    by_cases hk : k = k0
    · subst hk
      have : alookup rest k = none := by
        rw [alookup_eq_none]
        simpa [keysOf] using h.1
      simp [this, alookup_cons, alookup_aset]
    · have hk' : ¬ k0 = k := fun hh => hk hh.symm
      cases hr : alookup rest k <;> simp [alookup_cons, hk', hr, alookup_aset, hk]

theorem alookup_extendTable {V : Type} :
    ∀ (td : Table V) (acc : Table V) (k : String),
      nodupB (keysOf td) = true →
      alookup (extendTable acc td) k =
        mergeColOpt (alookup acc k) (alookup td k)
  | [], acc, k, _ => by
    cases h : alookup acc k <;> simp [extendTable, mergeColOpt, alookup, h]
  | (k0, v0) :: rest, acc, k, h => by
    simp only [keysOf, List.map, nodupB, Bool.and_eq_true,
      Bool.not_eq_true'] at h
    have hstep : extendTable acc ((k0, v0) :: rest) =
        extendTable (dextend acc k0 v0) rest := rfl
    rw [hstep, alookup_extendTable rest (dextend acc k0 v0) k h.2]
    by_cases hk : k = k0
    · subst hk
      have hnone : alookup rest k = none := by
        rw [alookup_eq_none]
        simpa [keysOf] using h.1
      cases ha : alookup acc k <;>
        simp [hnone, alookup_dextend, alookup_cons, mergeColOpt, ha]
    · have hk' : ¬ k0 = k := fun hh => hk hh.symm
      simp [alookup_dextend, alookup_cons, hk, hk']

theorem alookup_foldl_extendTable {V : Type} :
    ∀ (tds : List (Table V)) (acc : Table V) (k : String),
      (∀ td ∈ tds, nodupB (keysOf td) = true) →
      alookup (tds.foldl extendTable acc) k =
        tds.foldl (fun o td => mergeColOpt o (alookup td k)) (alookup acc k)
  | [], acc, k, _ => rfl
  | td :: rest, acc, k, h => by
    have h1 : nodupB (keysOf td) = true := h td (by simp)
    have h2 : ∀ u ∈ rest, nodupB (keysOf u) = true :=
      fun u hu => h u (by simp [hu])
    simp only [List.foldl]
    rw [alookup_foldl_extendTable rest (extendTable acc td) k h2,
      alookup_extendTable td acc k h1]

/-! ### Row-count check lemmas -/

theorem goRC_some_shape {V : Type} :
    ∀ (vs : List (List V)) (rc : Nat) (r : Option Nat),
      goRC vs (some rc) = .ok r → r = some rc ∧ ∀ v ∈ vs, v.length = rc
  | [], rc, r, h => by
    simp [goRC] at h
    simp [h.symm]
  | v :: vs, rc, r, h => by
    by_cases hl : rc = v.length
    · rw [goRC, if_pos hl] at h
      obtain ⟨h1, h2⟩ := goRC_some_shape vs rc r h
      exact ⟨h1, by
        intro u hu
        rcases List.mem_cons.1 hu with h3 | h3
        · rw [h3, hl]
        · exact h2 u h3⟩
    · rw [goRC, if_neg hl] at h
      exact absurd h (by simp)

theorem goRC_some_of_all {V : Type} :
    ∀ (vs : List (List V)) (rc : Nat),
      (∀ v ∈ vs, v.length = rc) → goRC vs (some rc) = .ok (some rc)
  | [], rc, _ => rfl
  | v :: vs, rc, h => by
    have hv : v.length = rc := h v (by simp)
    rw [goRC, if_pos hv.symm]
    exact goRC_some_of_all vs rc (fun u hu => h u (by simp [hu]))

theorem goRC_none_shape {V : Type} :
    ∀ (vs : List (List V)) (r : Option Nat),
      goRC vs none = .ok r →
        (vs = [] ∧ r = none) ∨
        (∃ rc, r = some rc ∧ vs ≠ [] ∧ ∀ v ∈ vs, v.length = rc)
  | [], r, h => by
    simp [goRC] at h
    exact Or.inl ⟨rfl, h.symm⟩
  | v :: vs, r, h => by
    rw [goRC] at h
    obtain ⟨h1, h2⟩ := goRC_some_shape vs v.length r h
    refine Or.inr ⟨v.length, h1, by simp, ?_⟩
    intro u hu
    rcases List.mem_cons.1 hu with h3 | h3
    · rw [h3]
    · exact h2 u h3

theorem goRC_error_of_bad {V : Type} :
    ∀ (vs : List (List V)) (rc : Nat),
      (∃ v ∈ vs, v.length ≠ rc) →
      goRC vs (some rc) = .error "Sibling nodes have differing row counts"
  | [], rc, h => by simp at h
  | v :: vs, rc, h => by
    by_cases hl : rc = v.length
    · rw [goRC, if_pos hl]
      obtain ⟨u, hu, hne⟩ := h
      rcases List.mem_cons.1 hu with h3 | h3
      · exact absurd (h3 ▸ hl.symm) hne
      · exact goRC_error_of_bad vs rc ⟨u, h3, hne⟩
    · rw [goRC, if_neg hl]

theorem exportChildrenAux_eq_childTables {V : Type} :
    ∀ (cs : List (Tree V)) (acc : Table V),
      exportChildrenAux cs acc =
        (childTables cs).map (fun tds => tds.foldl extendTable acc)
  | [], acc => by simp [exportChildrenAux, childTables, Except.map]
  | c :: rest, acc => by
    rw [exportChildrenAux, childTables]
    cases hc : exportNode c [] with
    | error e => simp [Except.map]
    | ok td =>
      dsimp only
      rw [exportChildrenAux_eq_childTables rest (extendTable acc td)]
      cases hr : childTables rest with
      | error e => simp [Except.map]
      | ok tds => simp [Except.map, List.foldl]

mutual

theorem leaves_zero_export {V : Type} :
    ∀ (t : Tree V) (extra : Dict V), leaves t = 0 →
      exportNode t extra = .ok []
  | .mk ty nid visit true cs, extra, h => by simp [leaves] at h
  | .mk ty nid visit false cs, extra, h => by
    have hcs : leavesList cs = 0 := by simpa [leaves] using h
    rw [exportNode]
    simp only [if_neg (by simp : ¬ (false = true))]
    rw [leaves_zero_children cs [] hcs]
    simp [checkRowCount, goRC]

theorem leaves_zero_children {V : Type} :
    ∀ (cs : List (Tree V)) (acc : Table V), leavesList cs = 0 →
      exportChildrenAux cs acc = .ok acc
  | [], acc, _ => rfl
  | c :: rest, acc, h => by
    rw [leavesList] at h
    have hc : leaves c = 0 := Nat.eq_zero_of_add_eq_zero_right h
    have hr : leavesList rest = 0 := Nat.eq_zero_of_add_eq_zero_left h
    rw [exportChildrenAux, leaves_zero_export c [] hc]
    dsimp only [extendTable, List.foldl]
    exact leaves_zero_children rest acc hr

end

theorem alookup_mem {α : Type} :
    ∀ (l : List (String × α)) (k : String) (v : α),
      alookup l k = some v → (k, v) ∈ l
  | [], k, v, h => by simp [alookup] at h
  | (k0, v0) :: rest, k, v, h => by
    by_cases hk : k0 = k
    · subst hk
      rw [alookup_cons, if_pos rfl] at h
      simp only [Option.some_inj] at h
      subst h
      simp
    · rw [alookup_cons, if_neg hk] at h
      exact List.mem_cons_of_mem _ (alookup_mem rest k v h)

theorem alookup_rowify {V : Type} :
    ∀ (d : Dict V) (k : String),
      alookup (d.map (fun kv => (kv.1, [kv.2]))) k =
        (alookup d k).map (fun v => [v])
  | [], k => rfl
  | (k0, v0) :: rest, k => by
    by_cases hk : k0 = k
    · subst hk
      simp [alookup_cons]
    · simp [alookup_cons, hk, alookup_rowify rest k]

theorem nodupB_append_general :
    ∀ (xs ys : List String), nodupB xs = true → nodupB ys = true →
      (∀ k, memB xs k = true → memB ys k = false) →
      nodupB (xs ++ ys) = true
  | [], ys, _, hy, _ => hy
  | k' :: xs, ys, hx, hy, hdisj => by
    rw [nodupB, Bool.and_eq_true] at hx
    rw [List.cons_append, nodupB, memB_append]
    have h1 : memB xs k' = false := by
      cases hmb : memB xs k'
      · rfl
      · rw [hmb] at hx; exact absurd hx.1 (by simp)
    have h2 : memB ys k' = false := hdisj k' (by simp [memB])
    rw [h1, h2]
    simp only [Bool.or_false, Bool.not_false, Bool.true_and]
    exact nodupB_append_general xs ys hx.2 hy
      (fun k hk => hdisj k (by simp [memB, hk]))

theorem memB_keys_filter {α : Type} (p : String × α → Bool) :
    ∀ (b : List (String × α)) (k : String),
      memB (keysOf (b.filter p)) k = true → memB (keysOf b) k = true
  | [], k, h => by simp [List.filter, keysOf, memB] at h
  | kv :: rest, k, h => by
    rw [List.filter_cons] at h
    by_cases hp : p kv = true
    · rw [if_pos hp] at h
      simp only [keysOf, List.map_cons, memB, Bool.or_eq_true] at h ⊢
      rcases h with h | h
      · exact Or.inl h
      · exact Or.inr (memB_keys_filter p rest k h)
    · rw [if_neg hp] at h
      simp only [keysOf, List.map_cons, memB, Bool.or_eq_true]
      exact Or.inr (memB_keys_filter p rest k h)

theorem nodupB_keys_filter {α : Type} (p : String × α → Bool) :
    ∀ (b : List (String × α)), nodupB (keysOf b) = true →
      nodupB (keysOf (b.filter p)) = true
  | [], _ => rfl
  | kv :: rest, h => by
    simp only [keysOf, List.map_cons, nodupB, Bool.and_eq_true] at h
    rw [List.filter_cons]
    by_cases hp : p kv = true
    · rw [if_pos hp]
      simp only [keysOf, List.map_cons, nodupB, Bool.and_eq_true]
      constructor
      · show (!memB (keysOf (rest.filter p)) kv.1) = true
        cases hmb : memB (keysOf (rest.filter p)) kv.1 with
        | false => rfl
        | true =>
          have h2 := memB_keys_filter p rest kv.1 hmb
          have h1 : (!memB (keysOf rest) kv.1) = true := h.1
          rw [h2] at h1
          exact absurd h1 (by simp)
      · exact nodupB_keys_filter p rest h.2
    · rw [if_neg hp]
      exact nodupB_keys_filter p rest h.2

theorem nodupB_keys_pyMerge {α : Type} (a b : List (String × α))
    (ha : nodupB (keysOf a) = true) (hb : nodupB (keysOf b) = true) :
    nodupB (keysOf (pyMerge a b)) = true := by
  rw [pyMerge, keysOf_append]
  have hfix : keysOf (a.map (fun kv =>
      match alookup b kv.1 with
      | some v => (kv.1, v)
      | none => kv)) = keysOf a := by
    apply keysOf_map_keyfix
    intro kv
    cases h : alookup b kv.1 <;> simp
  rw [hfix]
  apply nodupB_append_general _ _ ha
    (nodupB_keys_filter _ b hb)
  intro k hk
  have hsome : (alookup a k).isSome = true := by
    rw [alookup_isSome_eq_memB]; exact hk
  rw [← alookup_isSome_eq_memB, alookup_pyMerge_filtered a b k]
  have : (alookup a k).isNone = false := by
    cases hl : alookup a k
    · rw [hl] at hsome; simp at hsome
    · simp
  rw [if_neg (by simp [this])]
  rfl

theorem nodupB_keys_mergeIf {V : Type} (extra visit : Dict V)
    (he : nodupB (keysOf extra) = true)
    (hv : nodupB (keysOf visit) = true) :
    nodupB (keysOf (mergeIf extra visit)) = true := by
  rw [mergeIf]
  by_cases h : extra.isEmpty
  · rw [if_pos h]; exact hv
  · rw [if_neg h]; exact nodupB_keys_pyMerge extra visit he hv

theorem nodupB_keys_foldl_extendTable {V : Type} :
    ∀ (tds : List (Table V)) (acc : Table V),
      nodupB (keysOf acc) = true →
      nodupB (keysOf (tds.foldl extendTable acc)) = true
  | [], acc, h => h
  | td :: rest, acc, h =>
    nodupB_keys_foldl_extendTable rest (extendTable acc td)
      (nodupB_keys_extendTable td acc h)

theorem mem_aset {α : Type} (t : List (String × α)) (k : String) (v : α) :
    ∀ col ∈ aset t k v, col ∈ t ∨ col = (k, v) := by
  intro col hcol
  rw [aset] at hcol
  by_cases hp : (alookup t k).isSome
  · rw [if_pos hp] at hcol
    obtain ⟨kv, hkv, heq⟩ := List.mem_map.1 hcol
    by_cases hk : kv.1 = k
    · right
      rw [if_pos hk] at heq
      rw [← heq, hk]
    · left
      rw [if_neg hk] at heq
      rw [← heq]
      exact hkv
  · rw [if_neg hp] at hcol
    rcases List.mem_append.1 hcol with h | h
    · exact Or.inl h
    · right
      simpa using h

theorem broadcast_mem_length {V : Type} :
    ∀ (nd : Dict V) (d : Table V) (rc : Nat),
      (∀ col ∈ d, col.2.length = rc) →
      ∀ col ∈ broadcast d nd rc, col.2.length = rc
  | [], d, rc, hd, col, hcol => hd col hcol
  | kv :: rest, d, rc, hd, col, hcol => by
    have hstep : broadcast d (kv :: rest) rc =
        broadcast (aset d kv.1 (List.replicate rc kv.2)) rest rc := rfl
    rw [hstep] at hcol
    refine broadcast_mem_length rest _ rc ?_ col hcol
    intro c hc
    rcases mem_aset d kv.1 (List.replicate rc kv.2) c hc with h | h
    · exact hd c h
    · rw [h]; simp

theorem checkRowCount_mem_length {V : Type} (d : Table V) (rc : Nat)
    (h : checkRowCount d = .ok (some rc)) :
    ∀ col ∈ d, col.2.length = rc := by
  intro col hcol
  rw [checkRowCount] at h
  rcases goRC_none_shape (d.map (·.2)) (some rc) h with ⟨h1, _⟩ | ⟨n, hn, _, hall⟩
  · have hd : d = [] := by
      cases d
      · rfl
      · simp at h1
    rw [hd] at hcol
    simp at hcol
  · have : col.2 ∈ d.map (·.2) := List.mem_map.2 ⟨col, hcol, rfl⟩
    have := hall col.2 this
    simp only [Option.some_inj] at hn
    rw [this, hn]

theorem fold_col_length {V : Type} (k0 : String) :
    ∀ (cs : List (Tree V)) (tds : List (Table V)),
      List.Forall₂ (childFacts k0) cs tds →
      ∀ (o : Option (List V)),
        (tds.foldl (fun o td => mergeColOpt o (alookup td k0)) o).map
            List.length =
          if o.isSome = true ∨ 0 < leavesList cs then
            some ((o.getD []).length + leavesList cs)
          else none := by
  intro cs tds h
  induction h with
  | nil =>
    intro o
    cases o <;> simp [leavesList, List.foldl]
  | @cons c td cs' tds' hcf hrest ih =>
    intro o
    simp only [List.foldl, leavesList]
    rw [ih (mergeColOpt o (alookup td k0))]
    by_cases hl : leaves c = 0
    · have htd : td = [] := hcf.2.2.2 hl
      subst htd
      have ha : alookup ([] : Table V) k0 = none := rfl
      rw [ha, hl]
      cases o with
      | none => simp [mergeColOpt]
      | some l => simp [mergeColOpt, Nat.add_assoc]
    · have hpos : 0 < leaves c := Nat.pos_of_ne_zero hl
      have hsome := hcf.2.2.1 hpos
      obtain ⟨col, hcol⟩ := Option.isSome_iff_exists.1 hsome
      have hlen : col.length = leaves c := hcf.2.1 (k0, col) (alookup_mem td k0 col hcol)
      rw [hcol]
      cases o with
      | none =>
        have hmerge : mergeColOpt (none : Option (List V)) (some col) =
            some col := by simp [mergeColOpt]
        have h1 : 0 < leaves c + leavesList cs' := by omega
        rw [hmerge]
        simp [h1, hlen]
      | some l =>
        have hmerge : mergeColOpt (some l) (some col) = some (l ++ col) := by
          simp [mergeColOpt]
        have h1 : 0 < leaves c + leavesList cs' := by omega
        rw [hmerge]
        simp [h1, hlen, List.length_append]
        omega

theorem forall₂_right_nodup {V : Type} (k0 : String)
    (cs : List (Tree V)) (tds : List (Table V))
    (h : List.Forall₂ (childFacts k0) cs tds) :
    ∀ td ∈ tds, nodupB (keysOf td) = true := by
  induction h with
  | nil => intro td htd; simp at htd
  | @cons c td cs' tds' hcf hrest ih =>
    intro u hu
    rcases List.mem_cons.1 hu with h1 | h1
    · rw [h1]; exact hcf.1
    · exact ih u h1

mutual

theorem c1main_node {V : Type} :
    ∀ (t : Tree V) (extra : Dict V) (T : Table V) (k0 : String),
      wfB t = true → allLeavesHaveB k0 t = true →
      nodupB (keysOf extra) = true →
      exportNode t extra = .ok T →
      nodupB (keysOf T) = true ∧
      (∀ col ∈ T, col.2.length = leaves t) ∧
      (0 < leaves t → (alookup T k0).isSome = true)
  | .mk ty nid visit true cs, extra, T, k0, hwf, hall, hex, hok => by
    simp only [exportNode, if_pos rfl] at hok
    simp only [wfB, Bool.and_eq_true] at hwf
    rw [allLeavesHaveB] at hall
    have hT : T = (mergeIf extra visit).map (fun kv => (kv.1, [kv.2])) := by
      cases hok
      rfl
    subst hT
    refine ⟨?_, ?_, ?_⟩
    · rw [keysOf_map_keyfix (fun kv => (kv.1, [kv.2])) (fun kv => rfl)]
      exact nodupB_keys_mergeIf extra visit hex hwf.1.1
    · intro col hcol
      obtain ⟨kv, _, heq⟩ := List.mem_map.1 hcol
      rw [← heq]
      rfl
    · intro _
      rw [alookup_rowify, alookup_mergeIf]
      cases hv : alookup visit k0 with
      | none => rw [hv] at hall; simp at hall
      | some v => simp [oor]
  | .mk ty nid visit false cs, extra, T, k0, hwf, hall, hex, hok => by
    simp only [exportNode, Bool.false_eq_true, if_false,
      exportChildrenAux_eq_childTables] at hok
    simp only [wfB, Bool.and_eq_true] at hwf
    rw [allLeavesHaveB] at hall
    cases hct : childTables cs with
    | error e => rw [hct] at hok; simp [Except.map] at hok
    | ok tds =>
      rw [hct] at hok
      simp only [Except.map] at hok
      have hforall := c1main_children cs tds k0 hwf.2 hall hct
      have hnodups := forall₂_right_nodup k0 cs tds hforall
      have hd_nodup : nodupB (keysOf (tds.foldl extendTable [])) = true :=
        nodupB_keys_foldl_extendTable tds [] rfl
      have hdlook : alookup (tds.foldl extendTable []) k0 =
          tds.foldl (fun o td => mergeColOpt o (alookup td k0)) none := by
        rw [alookup_foldl_extendTable tds [] k0 hnodups]
        rfl
      have hfold := fold_col_length k0 cs tds hforall none
      rw [← hdlook] at hfold
      have hexp : exportChildrenAux cs [] = .ok (tds.foldl extendTable []) := by
        rw [exportChildrenAux_eq_childTables, hct]
        rfl
      cases hck : checkRowCount (tds.foldl extendTable []) with
      | error e => rw [hck] at hok; simp at hok
      | ok orc =>
        rw [hck] at hok
        cases orc with
        | none =>
          simp only [Except.ok.injEq] at hok
          subst hok
          have hck' : goRC ((tds.foldl extendTable ([] : Table V)).map
              (·.2)) none = .ok none := by
            rw [← checkRowCount]
            exact hck
          rcases goRC_none_shape _ _ hck' with ⟨h1, _⟩ | ⟨n, hn, _, _⟩
          · have hTnil : tds.foldl extendTable ([] : Table V) = [] := by
              cases hmm : tds.foldl extendTable ([] : Table V) with
              | nil => rfl
              | cons a l => rw [hmm] at h1; simp at h1
            rw [hTnil]
            refine ⟨rfl, by intro col hcol; simp at hcol, ?_⟩
            intro hpos
            have hpos' : 0 < leavesList cs := by
              simpa [leaves] using hpos
            rw [hTnil] at hfold
            simp [alookup, hpos'] at hfold
          · simp at hn
        | some rc =>
          simp only [Except.ok.injEq] at hok
          subst hok
          have hLpos : 0 < leavesList cs := by
            rcases Nat.eq_zero_or_pos (leavesList cs) with h0 | hp
            · have := leaves_zero_children cs ([] : Table V) h0
              rw [hexp] at this
              simp only [Except.ok.injEq] at this
              rw [this] at hck
              rw [checkRowCount] at hck
              simp [goRC] at hck
            · exact hp
          rw [if_pos (Or.inr hLpos)] at hfold
          have hrc : rc = leavesList cs := by
            cases hlk : alookup (tds.foldl extendTable []) k0 with
            | none => rw [hlk] at hfold; simp at hfold
            | some col =>
              rw [hlk] at hfold
              simp at hfold
              have hmem := alookup_mem _ _ _ hlk
              have h2 := checkRowCount_mem_length _ rc hck (k0, col) hmem
              simp only at h2
              omega
          have hmem_len := checkRowCount_mem_length _ rc hck
          refine ⟨nodupB_keys_broadcast _ _ rc hd_nodup, ?_, ?_⟩
          · intro col hcol
            have := broadcast_mem_length (mergeIf extra visit) _ rc
              hmem_len col hcol
            rw [this, hrc]
            simp [leaves]
          · intro _
            rw [alookup_broadcast (mergeIf extra visit) _ rc k0
              (nodupB_keys_mergeIf extra visit hex hwf.1.1)]
            cases hnd : alookup (mergeIf extra visit) k0 with
            | some v => simp
            | none =>
              cases hlk : alookup (tds.foldl extendTable []) k0 with
              | none => rw [hlk] at hfold; simp at hfold
              | some col => simp [hlk]

theorem c1main_children {V : Type} :
    ∀ (cs : List (Tree V)) (tds : List (Table V)) (k0 : String),
      wfListB cs = true → allLeavesListB k0 cs = true →
      childTables cs = .ok tds →
      List.Forall₂ (childFacts k0) cs tds
  | [], tds, k0, _, _, hok => by
    rw [childTables] at hok
    simp only [Except.ok.injEq] at hok
    rw [← hok]
    exact List.Forall₂.nil
  | c :: rest, tds, k0, hwf, hall, hok => by
    rw [childTables] at hok
    simp only [wfListB, Bool.and_eq_true] at hwf
    simp only [allLeavesListB, Bool.and_eq_true] at hall
    cases hc : exportNode c [] with
    | error e => rw [hc] at hok; simp at hok
    | ok td =>
      rw [hc] at hok
      cases hr : childTables rest with
      | error e => rw [hr] at hok; simp at hok
      | ok tds' =>
        rw [hr] at hok
        simp only [Except.ok.injEq] at hok
        rw [← hok]
        have hmain := c1main_node c [] td k0 hwf.1 hall.1 rfl hc
        refine List.Forall₂.cons ⟨hmain.1, hmain.2.1, hmain.2.2, ?_⟩
          (c1main_children rest tds' k0 hwf.2 hall.2 hr)
        intro hz
        have := leaves_zero_export c ([] : Dict V) hz
        rw [hc] at this
        simp only [Except.ok.injEq] at this
        rw [← this]

end

theorem aset_ne_nil {α : Type} (t : List (String × α)) (k : String)
    (v : α) (h : t ≠ []) : aset t k v ≠ [] := by
  rw [aset]
  by_cases hp : (alookup t k).isSome
  · rw [if_pos hp]
    cases t with
    | nil => exact absurd rfl h
    | cons a l => simp
  · rw [if_neg hp]
    cases t <;> simp

theorem broadcast_ne_nil {V : Type} :
    ∀ (nd : Dict V) (d : Table V) (rc : Nat), d ≠ [] →
      broadcast d nd rc ≠ []
  | [], d, rc, h => h
  | kv :: rest, d, rc, h =>
    broadcast_ne_nil rest (aset d kv.1 (List.replicate rc kv.2)) rc
      (aset_ne_nil d kv.1 _ h)

/-! ### Claim theorems -/

/-- Claim C1 (amended).  The claim as frozen — "for every tree whose
export succeeds, the full export produces exactly one row per reachable
leaf" — fails when sibling subtrees produce disjoint column sets (see the
counterexample); it holds once some single column key occurs in every
leaf visitor's output.  Under that condition, for a well-formed graph
whose export succeeds, every column of the result has exactly one entry
per leaf reachable from the root, the result's row count equals the leaf
count, and a branching node whose normalized children list is empty
contributes zero rows with none of its own columns surviving. -/
theorem c1_full_export_row_count {V : Type} (t : Tree V) (T : Table V)
    (k0 : String) (hwf : wfB t = true)
    (hall : allLeavesHaveB k0 t = true)
    (hok : exportNode t [] = .ok T) :
    rowCount T = leaves t ∧
    (∀ col ∈ T, col.2.length = leaves t) ∧
    (∀ (ty : String) (nid : Nat) (visit extra : Dict V),
      exportNode (Tree.mk ty nid visit false []) extra = .ok []) := by
  have hmain := c1main_node t [] T k0 hwf hall rfl hok
  refine ⟨?_, hmain.2.1, ?_⟩
  · cases hT : T with
    | nil =>
      rw [rowCount]
      rcases Nat.eq_zero_or_pos (leaves t) with h0 | hp
      · rw [h0]
      · have := hmain.2.2 hp
        rw [hT] at this
        simp [alookup] at this
    | cons c rest =>
      rw [rowCount]
      exact hmain.2.1 c (by rw [hT]; simp)
  · intro ty nid visit extra
    exact leaves_zero_export (Tree.mk ty nid visit false []) extra
      (by simp [leaves, leavesList])

/-- Claim C1, counterexample to the frozen wording: a well-formed
two-leaf tree whose sibling leaves produce disjoint column sets exports
successfully to a one-row table — one row for two reachable leaves (each
column list has a single entry, so the resulting frame has one row), with
no error raised. -/
theorem c1_counterexample :
    wfB (Tree.mk "R" 0 [] false
      [Tree.mk "L1" 1 [("x", "1")] true [],
       Tree.mk "L2" 2 [("y", "2")] true []]) = true ∧
    exportNode (Tree.mk "R" 0 ([] : Dict String) false
      [Tree.mk "L1" 1 [("x", "1")] true [],
       Tree.mk "L2" 2 [("y", "2")] true []]) [] =
      .ok [("x", ["1"]), ("y", ["2"])] ∧
    rowCount [("x", ["1"]), ("y", ["2"])] = 1 ∧
    leaves (Tree.mk "R" 0 ([] : Dict String) false
      [Tree.mk "L1" 1 [("x", "1")] true [],
       Tree.mk "L2" 2 [("y", "2")] true []]) = 2 := by
  refine ⟨?_, ?_, rfl, ?_⟩
  · simp [wfB, wfListB, nodupB, memB, keysOf]
  · simp [exportNode, exportChildrenAux, extendTable, dextend, alookup,
      mergeIf, checkRowCount, goRC, broadcast, aset, pyMerge, keysOf]
  · simp [leaves, leavesList]

/-- Witness for the amended claim C1 at a concrete two-leaf tree whose
leaves share the column key `"k"`. -/
theorem c1_full_export_row_count_witness :
    rowCount [("k", ["a", "b"]), ("s", ["1", "1"])] =
      leaves (Tree.mk "R" 0 ([("s", "1")] : Dict String) false
        [Tree.mk "L1" 1 [("k", "a")] true [],
         Tree.mk "L2" 2 [("k", "b")] true []]) :=
  (c1_full_export_row_count
    (Tree.mk "R" 0 ([("s", "1")] : Dict String) false
      [Tree.mk "L1" 1 [("k", "a")] true [],
       Tree.mk "L2" 2 [("k", "b")] true []])
    [("k", ["a", "b"]), ("s", ["1", "1"])] "k"
    (by simp [wfB, wfListB, nodupB, memB, keysOf])
    (by simp [allLeavesHaveB, allLeavesListB, alookup])
    (by simp [exportNode, exportChildrenAux, extendTable, dextend, alookup,
      mergeIf, checkRowCount, goRC, broadcast, aset, pyMerge,
      List.replicate])).1

/-- Claim C5 (confirmed): when `_export_list` aggregates sibling
subtrees' partial tables, any two resulting column lists of different
lengths make the enclosing `_export` raise the row-count `ValueError`
(nothing is padded), and when all column lists have one common length the
aggregation succeeds with that length as the node's row count. -/
theorem c5_inconsistent_row_counts {V : Type} (d : Table V) (ty : String)
    (nid : Nat) (visit extra : Dict V) (cs : List (Tree V))
    (hagg : exportChildrenAux cs [] = .ok d) :
    ((∃ c1 ∈ d, ∃ c2 ∈ d, c1.2.length ≠ c2.2.length) →
      exportNode (Tree.mk ty nid visit false cs) extra =
        .error "Sibling nodes have differing row counts") ∧
    (∀ n, (∀ c ∈ d, c.2.length = n) → d ≠ [] →
      ∃ T, exportNode (Tree.mk ty nid visit false cs) extra = .ok T ∧
        rowCount T = n ∧ ∀ col ∈ T, col.2.length = n) := by
  have hstep : exportNode (Tree.mk ty nid visit false cs) extra =
      (match checkRowCount d with
       | .error e => .error e
       | .ok none => .ok d
       | .ok (some rc) => .ok (broadcast d (mergeIf extra visit) rc)) := by
    rw [exportNode]
    simp [hagg]
  constructor
  · rintro ⟨c1, hc1, c2, hc2, hne⟩
    rw [hstep]
    cases hd : d with
    | nil => rw [hd] at hc1; simp at hc1
    | cons c0 rest =>
      subst hd
      have hck : checkRowCount (c0 :: rest) =
          .error "Sibling nodes have differing row counts" := by
        rw [checkRowCount]
        simp only [List.map_cons]
        rw [goRC]
        by_cases hall2 : ∀ v ∈ rest.map (·.2), v.length = c0.2.length
        · exfalso
          have l1 : c1.2.length = c0.2.length := by
            rcases List.mem_cons.1 hc1 with h | h
            · rw [h]
            · exact hall2 c1.2 (List.mem_map.2 ⟨c1, h, rfl⟩)
          have l2 : c2.2.length = c0.2.length := by
            rcases List.mem_cons.1 hc2 with h | h
            · rw [h]
            · exact hall2 c2.2 (List.mem_map.2 ⟨c2, h, rfl⟩)
          exact hne (l1.trans l2.symm)
        · push_neg at hall2
          obtain ⟨v, hv, hvne⟩ := hall2
          exact goRC_error_of_bad (rest.map (·.2)) c0.2.length ⟨v, hv, hvne⟩
      rw [hck]
  · intro n hlen hne
    have hck : checkRowCount d = .ok (some n) := by
      cases hd : d with
      | nil => exact absurd hd hne
      | cons c0 rest =>
        subst hd
        rw [checkRowCount]
        simp only [List.map_cons]
        rw [goRC]
        have h0 : c0.2.length = n := hlen c0 (by simp)
        rw [h0]
        exact goRC_some_of_all (rest.map (·.2)) n
          (by
            intro v hv
            obtain ⟨c, hc, hceq⟩ := List.mem_map.1 hv
            rw [← hceq]
            exact hlen c (by simp [hc]))
    rw [hstep, hck]
    refine ⟨broadcast d (mergeIf extra visit) n, rfl, ?_, ?_⟩
    · have hbne := broadcast_ne_nil (mergeIf extra visit) d n hne
      cases hB : broadcast d (mergeIf extra visit) n with
      | nil => exact absurd hB hbne
      | cons b bs =>
        rw [rowCount]
        exact broadcast_mem_length (mergeIf extra visit) d n hlen b
          (by rw [hB]; simp)
    · exact broadcast_mem_length (mergeIf extra visit) d n hlen

/-- Witness for claim C5: a mismatching aggregate (a one-leaf sibling
next to a two-leaf sibling with a disjoint column) raises the error, and
a matching aggregate of two one-row siblings succeeds with row count
one. -/
theorem c5_inconsistent_row_counts_witness :
    exportNode (Tree.mk "P" 0 ([] : Dict String) false
      [Tree.mk "A" 1 [("a", "1")] true [],
       Tree.mk "B" 2 [] false
         [Tree.mk "C" 3 [("b", "2")] true [],
          Tree.mk "C" 4 [("b", "3")] true []]]) [] =
      .error "Sibling nodes have differing row counts" ∧
    (∃ T, exportNode (Tree.mk "P" 0 ([] : Dict String) false
      [Tree.mk "A" 1 [("a", "1")] true [],
       Tree.mk "A" 2 [("a", "2")] true []]) [] = .ok T ∧
      rowCount T = 2 ∧ ∀ col ∈ T, col.2.length = 2) := by
  constructor
  · exact (c5_inconsistent_row_counts
      [("a", ["1"]), ("b", ["2", "3"])] "P" 0 [] [] _
      (by simp [exportChildrenAux, exportNode, extendTable, dextend,
        alookup, mergeIf, checkRowCount, goRC, broadcast, aset,
        List.replicate])).1
      (by
        refine ⟨("a", ["1"]), by simp, ("b", ["2", "3"]), by simp, by simp⟩)
  · exact (c5_inconsistent_row_counts
      [("a", ["1", "2"])] "P" 0 [] [] _
      (by simp [exportChildrenAux, exportNode, extendTable, dextend,
        alookup, mergeIf, checkRowCount, goRC, broadcast, aset])).2
      2 (by
        intro c hc
        rcases List.mem_cons.1 hc with h | h
        · rw [h]; rfl
        · simp at h)
      (by simp)

theorem nth_map {α β : Type} (f : α → β) :
    ∀ (l : List α) (i : Nat), nth (l.map f) i = (nth l i).map f
  | [], i => by simp [nth]
  | a :: l, 0 => rfl
  | a :: l, i + 1 => by
    simp only [List.map_cons, nth]
    exact nth_map f l i

/-- Claim C10 (confirmed): in `_sort`, `None` and every scalar other than
the exact string `"desc"` count as ascending, a list entry other than
`"desc"` counts as ascending for its (corresponding) key, replacing every
non-`"desc"` entry by `"asc"` leaves the sort unchanged, and no
`sort_order` value ever raises (a scalar or `None` always succeeds; a
list succeeds whenever it is parallel to `sort_by`). -/
theorem c10_unrecognized_sort_order (lt : PyVal → PyVal → Bool) (df : DF)
    (sb : SortBy) :
    (sortDirection .none = .inl true) ∧
    (∀ s, s ≠ "desc" → sortDirection (.str s) = .inl true) ∧
    (∀ l i o, nth l i = some o → o ≠ "desc" →
      ∃ bs, sortDirection (.list l) = .inr bs ∧ nth bs i = some true) ∧
    (∀ s, s ≠ "desc" →
      applySort lt df sb (.str s) = applySort lt df sb (.str "asc")) ∧
    (applySort lt df sb .none = applySort lt df sb (.str "asc")) ∧
    (∀ s, ∃ d, applySort lt df sb (.str s) = .ok d) ∧
    (∃ d, applySort lt df sb .none = .ok d) ∧
    (∀ l, l.length = (sortKeys sb).length →
      ∃ d, applySort lt df sb (.list l) = .ok d) := by
  have hdirs : ∀ s, s ≠ "desc" → sortDirection (.str s) = .inl true := by
    intro s hs
    simp [sortDirection, hs]
  have hasc : sortDirection (.str "asc") = .inl true := by
    simp [sortDirection]
  refine ⟨rfl, hdirs, ?_, ?_, ?_, ?_, ?_, ?_⟩
  · intro l i o hnth ho
    refine ⟨l.map (fun o => o != "desc"), rfl, ?_⟩
    rw [nth_map, hnth]
    simp [ho]
  · intro s hs
    rw [applySort, applySort, hdirs s hs, hasc]
  · rw [applySort, applySort, hasc]
    rfl
  · intro s
    rw [applySort]
    by_cases hf : sortByFalsy sb = true
    · rw [if_pos hf]; exact ⟨df, rfl⟩
    · rw [if_neg hf]
      exact ⟨_, rfl⟩
  · rw [applySort]
    by_cases hf : sortByFalsy sb = true
    · rw [if_pos hf]; exact ⟨df, rfl⟩
    · rw [if_neg hf]
      exact ⟨_, rfl⟩
  · intro l hl
    rw [applySort]
    by_cases hf : sortByFalsy sb = true
    · rw [if_pos hf]; exact ⟨df, rfl⟩
    · rw [if_neg hf]
      have hd : sortDirection (.list l) =
          .inr (l.map (fun o => o != "desc")) := rfl
      rw [hd]
      dsimp only
      rw [if_pos (by simp [hl])]
      exact ⟨_, rfl⟩

/-- Witness for claim C10 at a concrete frame and key: the unrecognized
scalar `"descending"`, the unset order, and a parallel one-entry list all
sort without error, identically to `"asc"`. -/
theorem c10_unrecognized_sort_order_witness :
    sortDirection (.str "descending") = .inl true ∧
    applySort (fun _ _ => false) [] (.one "k") (.str "descending") =
      applySort (fun _ _ => false) [] (.one "k") (.str "asc") ∧
    (∃ d, applySort (fun _ _ => false) [] (.one "k")
      (.list ["maybe"]) = .ok d) := by
  have h := c10_unrecognized_sort_order (fun _ _ => false) [] (.one "k")
  exact ⟨h.2.1 "descending" (by decide),
    h.2.2.2.1 "descending" (by decide),
    h.2.2.2.2.2.2.2 ["maybe"] (by decide)⟩

/-- Claim C7 (amended): the repository's `format_value` implements
exactly the claimed per-cell mapping (`None` → empty string, `True` or
`"Yes"` → `"Y"`, `False` or `"No"` → `"N"`, date/datetime → ISO-8601,
else unchanged), but the delimited-text serializer never applies it: the
CSV body renders the post-processed cells with the external `to_csv`
default rendering (`toCsvCell`), which passes `"Yes"` through unchanged
and writes booleans as `"True"`/`"False"`. -/
theorem c7_csv_cell_formatting :
    (∀ v, format_value v = formatValueSpec v) ∧
    (∀ (lt : PyVal → PyVal → Bool) (cfg : Config) (t : Tree PyVal)
      (df : DF), (exportFullT lt cfg t).2 = .ok df →
      exportToCsvLines lt cfg t =
        .ok (disclaimerRows cfg ++ [cfg.schema.map (·.oid)] ++
          (dfRows df).map (fun r => r.map (fun kv => toCsvCell kv.2)))) ∧
    toCsvCell (.str "Yes") = "Yes" ∧
    toCsvCell (.bool true) = "True" := by
  refine ⟨?_, ?_, rfl, rfl⟩
  · intro v
    cases v with
    | none => rfl
    | bool b => cases b <;> rfl
    | str s =>
      by_cases hy : s = "Yes"
      · simp [format_value, formatValueSpec, pyEqStr, hy]
      · by_cases hn : s = "No"
        · simp [format_value, formatValueSpec, pyEqStr, hy, hn]
        · simp [format_value, formatValueSpec, pyEqStr, hy, hn]
    | int n => rfl
    | date y m d => rfl
    | datetime y mo d h mi s => rfl
  · intro lt cfg t df h
    rw [exportToCsvLines]
    rcases hE : exportFullT lt cfg t with ⟨tr, res⟩
    rw [hE] at h
    simp only at h
    subst h
    rfl

/-- Claim C7, counterexample to the frozen wording: a concrete export
whose single cell holds the string `"Yes"` serializes it as `"Yes"`, not
as the `"Y"` the claimed per-cell formatting would produce. -/
theorem c7_counterexample :
    exportToCsvLines (fun _ _ => false)
      ⟨some "EX", some "DOMAIN", none, [],
        [⟨"VALUE", "VALUE", "Value", "Char", "200"⟩,
         ⟨"DOMAIN", "DOMAIN", "Domain", "Char", "200"⟩],
        .none, .none, .none, none⟩
      (Tree.mk "Study" 0 [] false
        [Tree.mk "Input" 1 [("VALUE", PyVal.str "Yes")] true []]) =
      .ok [["VALUE", "DOMAIN"], ["Yes", "EX"]] ∧
    format_value (.str "Yes") = .str "Y" ∧
    ("Yes" : String) ≠ "Y" := by
  refine ⟨?_, rfl, by decide⟩
  simp only [exportToCsvLines, exportFullT, exportNodeT,
    exportChildrenAuxT, domainInvalid, postProcess, setScalar,
    addConstants, addMissing, applySort, annotateStep, annotatorsFalsy,
    sortByFalsy, selectCols, alookup, aset, extendTable, dextend, mergeIf,
    checkRowCount, goRC, broadcast, rowCount, dfRows, rowAt, nth,
    disclaimerRows, keysOf, List.replicate, toCsvCell]
  rfl

theorem chainLook_cons {V : Type} (d : Dict V) (ds : List (Dict V))
    (k : String) :
    chainLook (d :: ds) k = oor (alookup d k) (chainLook ds k) := by
  rw [chainLook]
  cases alookup d k <;> simp [oor]

theorem alookup_replay_general {V : Type} :
    ∀ (ds : List (Dict V)) (acc : Dict V) (k : String),
      alookup (ds.foldl (fun acc d => pyMerge d acc) acc) k =
        oor (alookup acc k) (chainLook ds k)
  | [], acc, k => by simp [chainLook, oor_none_right]
  | d :: ds, acc, k => by
    simp only [List.foldl]
    rw [alookup_replay_general ds (pyMerge d acc) k, alookup_pyMerge,
      chainLook_cons]
    rw [oor_assoc]

theorem alookup_replay {V : Type} (ds : List (Dict V)) (k : String) :
    alookup (replay ds) k = chainLook ds k := by
  rw [replay, alookup_replay_general ds [] k]
  simp [alookup, oor]

theorem chainTo_cons_ne_nil {V : Type} (t : Tree V) (p : List Nat)
    (ancs : List (Tree V)) (tgt : Tree V) (hne : p ≠ [])
    (hchain : chainTo t p = some (ancs, tgt)) : ancs ≠ [] := by
  cases p with
  | nil => exact absurd rfl hne
  | cons i p' =>
    rw [chainTo] at hchain
    cases hn : nth t.children i with
    | none => rw [hn] at hchain; simp at hchain
    | some c =>
      rw [hn] at hchain
      dsimp only at hchain
      cases hc : chainTo c p' with
      | none => rw [hc] at hchain; simp at hchain
      | some pr =>
        obtain ⟨ancs', tgt'⟩ := pr
        rw [hc] at hchain
        simp only [Option.some_inj, Prod.mk.injEq] at hchain
        rw [← hchain.1]
        simp

/-- Claim C3 (amended).  The claim as frozen says the replay makes a
deeper ancestor's visitor output override a shallower one's; the code's
`parent_data = {**visit(n), **parent_data}` does the opposite — on a key
collision the shallowest ancestor that declares the key wins (matching
the full export, where every ancestor's broadcast overrides its
descendants' values) — while the subtree node's own visitor output does
override every inherited column. -/
theorem c3_subtree_context {V : Type} (t : Tree V) (p : List Nat)
    (ancs : List (Tree V)) (tgt : Tree V)
    (hchain : chainTo t p = some (ancs, tgt)) (hne : p ≠ []) :
    exportSubtree t p = exportNode tgt (replay (ancs.map Tree.visit)) ∧
    (∀ k, alookup (replay (ancs.map Tree.visit)) k =
      chainLook (ancs.map Tree.visit) k) ∧
    (∀ k v, alookup tgt.visit k = some v →
      alookup (mergeIf (replay (ancs.map Tree.visit)) tgt.visit) k =
        some v) := by
  refine ⟨?_, fun k => alookup_replay _ k, ?_⟩
  · have hne2 := chainTo_cons_ne_nil t p ancs tgt hne hchain
    rw [exportSubtree, hchain]
    cases ancs with
    | nil => exact absurd rfl hne2
    | cons a rest => rfl
  · intro k v hv
    rw [alookup_mergeIf, hv]
    rfl


/-- Claim C3, counterexample to the frozen wording: in the chain
`R{a="r"} → B{a="b"} → L{x="1"}`, subtree export of `L` replays the
ancestors and accumulates `a = "r"` — the shallower `R` overrides the
deeper `B` (whose visitor declares `a = "b"`), where the claim predicts
the deeper value `"b"`. -/
theorem c3_counterexample :
    exportSubtree (Tree.mk "R" 0 [("a", "r")] false
      [Tree.mk "B" 1 [("a", "b")] false
        [Tree.mk "L" 2 [("x", "1")] true []]]) [0, 0] =
      .ok [("a", ["r"]), ("x", ["1"])] ∧
    alookup [("a", ["r"]), ("x", ["1"])] "a" = some ["r"] ∧
    Tree.visit (Tree.mk "B" 1 [("a", "b")] false
      [Tree.mk "L" 2 [("x", "1")] true []]) = [("a", "b")] ∧
    ("r" : String) ≠ "b" := by
  refine ⟨?_, by decide, rfl, by decide⟩
  simp [exportSubtree, chainTo, Tree.children, nth, replay, pyMerge,
    alookup, exportNode, mergeIf, Tree.visit, keysOf]

/-- Witness for the amended claim C3 at the concrete chain above:
subtree export of `L` equals a plain export of `L` under the replayed
context, the replayed context resolves `"a"` by first (shallowest)
match down the chain, and the target's own column `"x"` overrides
everything inherited. -/
theorem c3_subtree_context_witness :
    exportSubtree (Tree.mk "R" 0 [("a", "r")] false
      [Tree.mk "B" 1 [("a", "b")] false
        [Tree.mk "L" 2 [("x", "1")] true []]]) [0, 0] =
      exportNode (Tree.mk "L" 2 [("x", "1")] true [])
        (replay ([Tree.mk "R" 0 [("a", "r")] false
          [Tree.mk "B" 1 [("a", "b")] false
            [Tree.mk "L" 2 [("x", "1")] true []]],
          Tree.mk "B" 1 [("a", "b")] false
            [Tree.mk "L" 2 [("x", "1")] true []]].map Tree.visit)) ∧
    alookup (replay ([Tree.mk "R" 0 [("a", "r")] false
      [Tree.mk "B" 1 [("a", "b")] false
        [Tree.mk "L" 2 [("x", "1")] true []]],
      Tree.mk "B" 1 [("a", "b")] false
        [Tree.mk "L" 2 [("x", "1")] true []]].map Tree.visit)) "a" =
      chainLook ([Tree.mk "R" 0 [("a", "r")] false
        [Tree.mk "B" 1 [("a", "b")] false
          [Tree.mk "L" 2 [("x", "1")] true []]],
        Tree.mk "B" 1 [("a", "b")] false
          [Tree.mk "L" 2 [("x", "1")] true []]].map Tree.visit) "a" ∧
    alookup (mergeIf (replay ([Tree.mk "R" 0 [("a", "r")] false
      [Tree.mk "B" 1 [("a", "b")] false
        [Tree.mk "L" 2 [("x", "1")] true []]],
      Tree.mk "B" 1 [("a", "b")] false
        [Tree.mk "L" 2 [("x", "1")] true []]].map Tree.visit))
      (Tree.visit (Tree.mk "L" 2 [("x", "1")] true []))) "x" =
      some "1" := by
  have h := c3_subtree_context
    (Tree.mk "R" 0 [("a", "r")] false
      [Tree.mk "B" 1 [("a", "b")] false
        [Tree.mk "L" 2 [("x", "1")] true []]]) [0, 0]
    [Tree.mk "R" 0 [("a", "r")] false
      [Tree.mk "B" 1 [("a", "b")] false
        [Tree.mk "L" 2 [("x", "1")] true []]],
      Tree.mk "B" 1 [("a", "b")] false
        [Tree.mk "L" 2 [("x", "1")] true []]]
    (Tree.mk "L" 2 [("x", "1")] true [])
    (by simp [chainTo, Tree.children, nth]) (by decide)
  exact ⟨h.1, h.2.1 "a", h.2.2 "x" "1" (by decide)⟩

/-- Witness for the amended claim C7 at a concrete one-cell export. -/
theorem c7_csv_cell_formatting_witness :
    format_value (.bool true) = formatValueSpec (.bool true) ∧
    exportToCsvLines (fun _ _ => false)
      ⟨some "EX", some "DOMAIN", none, [],
        [⟨"VALUE", "VALUE", "Value", "Char", "200"⟩,
         ⟨"DOMAIN", "DOMAIN", "Domain", "Char", "200"⟩],
        .none, .none, .none, none⟩
      (Tree.mk "Study" 0 [] false
        [Tree.mk "Input" 1 [("VALUE", PyVal.bool true)] true []]) =
      .ok (disclaimerRows
        ⟨some "EX", some "DOMAIN", none, [],
          [⟨"VALUE", "VALUE", "Value", "Char", "200"⟩,
           ⟨"DOMAIN", "DOMAIN", "Domain", "Char", "200"⟩],
          .none, .none, .none, none⟩ ++
        [[ "VALUE", "DOMAIN" ]] ++
        (dfRows [("VALUE", [PyVal.bool true]),
                 ("DOMAIN", [PyVal.str "EX"])]).map
          (fun r => r.map (fun kv => toCsvCell kv.2))) := by
  refine ⟨c7_csv_cell_formatting.1 (.bool true), ?_⟩
  have h2 := c7_csv_cell_formatting.2.1 (fun _ _ => false)
    ⟨some "EX", some "DOMAIN", none, [],
      [⟨"VALUE", "VALUE", "Value", "Char", "200"⟩,
       ⟨"DOMAIN", "DOMAIN", "Domain", "Char", "200"⟩],
      .none, .none, .none, none⟩
    (Tree.mk "Study" 0 [] false
      [Tree.mk "Input" 1 [("VALUE", PyVal.bool true)] true []])
    [("VALUE", [PyVal.bool true]), ("DOMAIN", [PyVal.str "EX"])]
    (by
      simp only [exportFullT, exportNodeT, exportChildrenAuxT,
        domainInvalid, postProcess, setScalar, addConstants, addMissing,
        applySort, annotateStep, annotatorsFalsy, sortByFalsy, selectCols,
        alookup, aset, extendTable, dextend, mergeIf, checkRowCount, goRC,
        broadcast, rowCount, keysOf, List.replicate]
      rfl)
  have h3 : (⟨some "EX", some "DOMAIN", none, [],
      [⟨"VALUE", "VALUE", "Value", "Char", "200"⟩,
       ⟨"DOMAIN", "DOMAIN", "Domain", "Char", "200"⟩],
      .none, .none, .none, none⟩ : Config).schema.map (·.oid) =
      ["VALUE", "DOMAIN"] := rfl
  rw [h2, h3]

theorem nth_mem {α : Type} :
    ∀ (l : List α) (i : Nat) (a : α), nth l i = some a → a ∈ l
  | [], i, a, h => by simp [nth] at h
  | x :: l, 0, a, h => by
    rw [nth] at h
    simp only [Option.some_inj] at h
    rw [← h]
    simp
  | x :: l, i + 1, a, h => by
    rw [nth] at h
    exact List.mem_cons_of_mem _ (nth_mem l i a h)

theorem nth_append_cases {α : Type} :
    ∀ (l1 l2 : List α) (i : Nat),
      nth (l1 ++ l2) i =
        if i < l1.length then nth l1 i else nth l2 (i - l1.length)
  | [], l2, i => by simp [nth]
  | x :: l1, l2, 0 => by simp [nth]
  | x :: l1, l2, i + 1 => by
    have h1 : nth ((x :: l1) ++ l2) (i + 1) = nth (l1 ++ l2) i := rfl
    rw [h1, nth_append_cases l1 l2 i]
    simp only [List.length_cons]
    by_cases h : i < l1.length
    · rw [if_pos h, if_pos (by omega)]
      rfl
    · rw [if_neg h, if_neg (by omega)]
      congr 1
      omega

theorem nth_replicate {α : Type} (v : α) :
    ∀ (n i : Nat), i < n → nth (List.replicate n v) i = some v
  | 0, i, h => by omega
  | n + 1, 0, _ => rfl
  | n + 1, i + 1, h => by
    rw [List.replicate_succ]
    rw [nth]
    exact nth_replicate v n i (by omega)

theorem nth_none_of_le {α : Type} :
    ∀ (l : List α) (i : Nat), l.length ≤ i → nth l i = none
  | [], i, _ => rfl
  | x :: l, 0, h => by simp at h
  | x :: l, i + 1, h => by
    rw [nth]
    exact nth_none_of_le l i (by simpa using h)

theorem nth_isSome_of_lt {α : Type} :
    ∀ (l : List α) (i : Nat), i < l.length → (nth l i).isSome = true
  | [], i, h => by simp at h
  | x :: l, 0, _ => rfl
  | x :: l, i + 1, h => by
    rw [nth]
    exact nth_isSome_of_lt l i (by simpa using h)

theorem nth_take {α : Type} :
    ∀ (l : List α) (n i : Nat), i < n → nth (l.take n) i = nth l i
  | [], n, i, _ => by simp [nth]
  | x :: l, n + 1, 0, _ => rfl
  | x :: l, n + 1, i + 1, h => by
    simp only [List.take_cons_succ, nth]
    exact nth_take l n i (by omega)

theorem nth_drop {α : Type} :
    ∀ (l : List α) (n i : Nat), nth (l.drop n) i = nth l (n + i)
  | l, 0, i => by simp [nth]
  | [], n + 1, i => by simp [nth]
  | x :: l, n + 1, i => by
    simp only [List.drop_succ_cons]
    rw [nth_drop l n i]
    have h1 : n + 1 + i = (n + i) + 1 := by omega
    rw [h1]
    rfl

theorem nth_ext {α : Type} :
    ∀ (l1 l2 : List α), l1.length = l2.length →
      (∀ i, i < l1.length → nth l1 i = nth l2 i) → l1 = l2
  | [], [], _, _ => rfl
  | [], b :: l2, h, _ => by simp at h
  | a :: l1, [], h, _ => by simp at h
  | a :: l1, b :: l2, h, hp => by
    have h0 := hp 0 (by simp)
    rw [nth, nth] at h0
    simp only [Option.some_inj] at h0
    rw [h0]
    have hrest : l1 = l2 := by
      refine nth_ext l1 l2 (by simpa using h) ?_
      intro i hi
      have := hp (i + 1) (by simpa using Nat.succ_lt_succ hi)
      rw [nth, nth] at this
      exact this
    rw [hrest]

theorem alookup_of_mem_nodup {α : Type} :
    ∀ (l : List (String × α)), nodupB (keysOf l) = true →
      ∀ kv ∈ l, alookup l kv.1 = some kv.2
  | [], _, kv, hkv => by simp at hkv
  | (k0, v0) :: rest, hnd, kv, hkv => by
    simp only [keysOf, List.map_cons, nodupB, Bool.and_eq_true] at hnd
    rcases List.mem_cons.1 hkv with h | h
    · rw [h]
      simp [alookup_cons]
    · rw [alookup_cons]
      have hmem : memB (keysOf rest) kv.1 = true := by
        rw [memB_iff_mem]
        exact List.mem_map.2 ⟨kv, h, rfl⟩
      by_cases hk : k0 = kv.1
      · exfalso
        rw [hk] at hnd
        have h1 : (!memB (keysOf rest) kv.1) = true := hnd.1
        rw [hmem] at h1
        simp at h1
      · rw [if_neg hk]
        exact alookup_of_mem_nodup rest hnd.2 kv h

theorem leaves_zero_colSet {V : Type} :
    ∀ (c : Tree V), leaves c = 0 → colSet c = []
  | .mk ty nid visit true cs, h => by simp [leaves] at h
  | .mk ty nid visit false cs, h => by
    have hcs : leavesList cs = 0 := by simpa [leaves] using h
    rw [colSet, if_pos hcs]

mutual

theorem colSet_nonempty {V : Type} :
    ∀ (c : Tree V), uniformB c = true → 0 < leaves c → colSet c ≠ []
  | .mk ty nid visit true cs, huni, _ => by
    rw [colSet]
    rw [uniformB] at huni
    cases visit with
    | nil => simp at huni
    | cons kv rest => simp [keysOf]
  | .mk ty nid visit false cs, huni, hpos => by
    have hcs : 0 < leavesList cs := by simpa [leaves] using hpos
    rw [colSet, if_neg (by omega)]
    rw [uniformB, Bool.and_eq_true] at huni
    have := colSetList_nonempty cs huni.1 hcs
    intro hcontra
    rcases List.append_eq_nil.1 hcontra with ⟨h1, _⟩
    exact this h1

theorem colSetList_nonempty {V : Type} :
    ∀ (cs : List (Tree V)), uniformListB cs = true → 0 < leavesList cs →
      colSetList cs ≠ []
  | [], _, hpos => by simp [leavesList] at hpos
  | c :: rest, huni, hpos => by
    rw [uniformListB, Bool.and_eq_true] at huni
    rw [colSetList]
    rw [leavesList] at hpos
    rcases Nat.eq_zero_or_pos (leaves c) with h0 | hp
    · have hrest : 0 < leavesList rest := by omega
      have := colSetList_nonempty rest huni.2 hrest
      intro hcontra
      rcases List.append_eq_nil.1 hcontra with ⟨_, h2⟩
      exact this h2
    · have := colSet_nonempty c huni.1 hp
      intro hcontra
      rcases List.append_eq_nil.1 hcontra with ⟨h1, _⟩
      exact this h1

end

theorem memB_colSetList_of_mem {V : Type} (k : String) :
    ∀ (cs : List (Tree V)) (c : Tree V), c ∈ cs →
      memB (colSet c) k = true → memB (colSetList cs) k = true
  | [], c, hc, _ => by simp at hc
  | c0 :: rest, c, hc, hk => by
    rw [colSetList, memB_append]
    rcases List.mem_cons.1 hc with h | h
    · rw [h] at hk
      rw [hk]
      rfl
    · rw [memB_colSetList_of_mem k rest c h hk]
      simp

theorem leaves_le_of_mem {V : Type} :
    ∀ (cs : List (Tree V)) (c : Tree V), c ∈ cs →
      leaves c ≤ leavesList cs
  | [], c, hc => by simp at hc
  | c0 :: rest, c, hc => by
    rw [leavesList]
    rcases List.mem_cons.1 hc with h | h
    · rw [h]; omega
    · have := leaves_le_of_mem rest c h
      omega

theorem leavesList_take_nth {V : Type} :
    ∀ (cs : List (Tree V)) (i : Nat) (c : Tree V), nth cs i = some c →
      leavesList (cs.take i) + leaves c ≤ leavesList cs
  | [], i, c, h => by simp [nth] at h
  | c0 :: rest, 0, c, h => by
    rw [nth] at h
    simp only [Option.some_inj] at h
    rw [← h]
    simp only [List.take_zero, leavesList]
    omega
  | c0 :: rest, i + 1, c, h => by
    rw [nth] at h
    have := leavesList_take_nth rest i c h
    simp only [List.take_succ_cons, leavesList]
    omega

theorem chainLook_none_of_all {V : Type} (k : String) :
    ∀ (ds : List (Dict V)), (∀ d ∈ ds, memB (keysOf d) k = false) →
      chainLook ds k = none
  | [], _ => rfl
  | d :: ds, h => by
    rw [chainLook]
    have h1 : alookup d k = none := by
      rw [alookup_eq_none]
      exact h d (by simp)
    rw [h1]
    exact chainLook_none_of_all k ds (fun u hu => h u (by simp [hu]))

theorem chainLook_isSome_exists {V : Type} (k : String) :
    ∀ (ds : List (Dict V)), (chainLook ds k).isSome = true →
      ∃ d ∈ ds, memB (keysOf d) k = true
  | [], h => by simp [chainLook] at h
  | d :: ds, h => by
    rw [chainLook] at h
    cases hd : alookup d k with
    | some v =>
      refine ⟨d, by simp, ?_⟩
      rw [← alookup_isSome_eq_memB, hd]
      rfl
    | none =>
      rw [hd] at h
      obtain ⟨u, hu, hk⟩ := chainLook_isSome_exists k ds h
      exact ⟨u, by simp [hu], hk⟩

theorem replay_nodup_general {V : Type} :
    ∀ (ds : List (Dict V)) (acc : Dict V),
      nodupB (keysOf acc) = true →
      (∀ d ∈ ds, nodupB (keysOf d) = true) →
      nodupB (keysOf (ds.foldl (fun acc d => pyMerge d acc) acc)) = true
  | [], acc, hacc, _ => hacc
  | d :: ds, acc, hacc, h => by
    simp only [List.foldl]
    exact replay_nodup_general ds (pyMerge d acc)
      (nodupB_keys_pyMerge d acc (h d (by simp)) hacc)
      (fun u hu => h u (by simp [hu]))

theorem replay_nodup {V : Type} (ds : List (Dict V))
    (h : ∀ d ∈ ds, nodupB (keysOf d) = true) :
    nodupB (keysOf (replay ds)) = true :=
  replay_nodup_general ds [] rfl h

theorem mergeColOpt_getD {V : Type} (o x : Option (List V)) :
    (mergeColOpt o x).getD [] = o.getD [] ++ x.getD [] := by
  cases o <;> cases x <;> simp [mergeColOpt]

theorem mergeColOpt_isSome {V : Type} (o x : Option (List V)) :
    (mergeColOpt o x).isSome = (o.isSome || x.isSome) := by
  cases o <;> cases x <;> simp [mergeColOpt]

theorem foldTD_getD {V : Type} (k : String) :
    ∀ (tds : List (Table V)) (o : Option (List V)),
      (tds.foldl (fun o td => mergeColOpt o (alookup td k)) o).getD [] =
        o.getD [] ++
          ((tds.map (fun td => (alookup td k).getD [])).flatten)
  | [], o => by simp
  | td :: tds, o => by
    simp only [List.foldl, List.map_cons, List.flatten]
    rw [foldTD_getD k tds (mergeColOpt o (alookup td k)), mergeColOpt_getD]
    rw [List.append_assoc]

theorem foldTD_isSome {V : Type} (k : String) :
    ∀ (tds : List (Table V)) (o : Option (List V)),
      ((tds.foldl (fun o td => mergeColOpt o (alookup td k)) o).isSome =
          true) ↔
        (o.isSome = true ∨ ∃ td ∈ tds, (alookup td k).isSome = true)
  | [], o => by simp
  | td :: tds, o => by
    simp only [List.foldl]
    rw [foldTD_isSome k tds (mergeColOpt o (alookup td k))]
    rw [mergeColOpt_isSome]
    constructor
    · rintro (h | h)
      · rcases Bool.or_eq_true_iff.1 h with h1 | h1
        · exact Or.inl h1
        · exact Or.inr ⟨td, by simp, h1⟩
      · obtain ⟨u, hu, h1⟩ := h
        exact Or.inr ⟨u, by simp [hu], h1⟩
    · rintro (h | h)
      · exact Or.inl (by rw [h]; rfl)
      · obtain ⟨u, hu, h1⟩ := h
        rcases List.mem_cons.1 hu with h2 | h2
        · rw [h2] at h1
          exact Or.inl (by rw [h1]; simp)
        · exact Or.inr ⟨u, h2, h1⟩

theorem subsetB_mem (a b : List String) (k : String)
    (hs : subsetB a b = true) (hk : memB a k = true) :
    memB b k = true := by
  rw [subsetB, List.all_eq_true] at hs
  exact hs k (memB_iff_mem a k |>.1 hk)

theorem sameCols_transfer (k : String) :
    ∀ (L : List (List String)) (a b : List String), sameColsListB L = true →
      a ∈ L → b ∈ L → memB a k = true → memB b k = true := by
  intro L a b hsame ha hb hk
  cases L with
  | nil => simp at ha
  | cons hd rest =>
    rw [sameColsListB, List.all_eq_true] at hsame
    have hhd : memB hd k = true := by
      rcases List.mem_cons.1 ha with h | h
      · rw [← h]; exact hk
      · have := hsame a h
        rw [seteqB, Bool.and_eq_true] at this
        exact subsetB_mem a hd k this.1 hk
    rcases List.mem_cons.1 hb with h | h
    · rw [h]; exact hhd
    · have := hsame b h
      rw [seteqB, Bool.and_eq_true] at this
      exact subsetB_mem hd b k this.2 hhd

theorem memB_colSetList_exists {V : Type} (k : String) :
    ∀ (cs : List (Tree V)), memB (colSetList cs) k = true →
      ∃ c ∈ cs, memB (colSet c) k = true
  | [], h => by simp [colSetList, memB] at h
  | c0 :: rest, h => by
    rw [colSetList, memB_append] at h
    rcases Bool.or_eq_true_iff.1 h with h1 | h1
    · exact ⟨c0, by simp, h1⟩
    · obtain ⟨c, hc, hk⟩ := memB_colSetList_exists k rest h1
      exact ⟨c, by simp [hc], hk⟩

theorem forall₂_right_nodup_u {V : Type} (extra : Dict V)
    (cs : List (Tree V)) (tds : List (Table V))
    (h : List.Forall₂ (uFacts extra) cs tds) :
    ∀ td ∈ tds, nodupB (keysOf td) = true := by
  induction h with
  | nil => intro td htd; simp at htd
  | @cons c td cs' tds' hcf hrest ih =>
    intro u hu
    rcases List.mem_cons.1 hu with h1 | h1
    · rw [h1]; exact hcf.1
    · exact ih u h1

theorem uFacts_absent_of_zero {V : Type} (c : Tree V) (td : Table V)
    (hcf : uFacts [] c td) (hz : leaves c = 0) (k : String) :
    alookup td k = none := by
  cases h : alookup td k with
  | none => rfl
  | some col =>
    have := (hcf.2.1 k).1 (by rw [h]; rfl)
    omega

theorem uFacts_present_iff {V : Type} (c : Tree V) (td : Table V)
    (hcf : uFacts [] c td) (k : String) :
    (alookup td k).isSome = true ↔ memB (colSet c) k = true := by
  rw [hcf.2.1 k]
  constructor
  · rintro ⟨_, h | h⟩
    · exact h
    · simp [keysOf, memB] at h
  · intro h
    refine ⟨?_, Or.inl h⟩
    rcases Nat.eq_zero_or_pos (leaves c) with h0 | hp
    · rw [leaves_zero_colSet c h0] at h
      simp [memB] at h
    · exact hp

theorem agg_presence {V : Type} (k : String) :
    ∀ (cs : List (Tree V)) (tds : List (Table V)),
      List.Forall₂ (uFacts []) cs tds →
      ((∃ td ∈ tds, (alookup td k).isSome = true) ↔
        memB (colSetList cs) k = true) := by
  intro cs tds h
  induction h with
  | nil => simp [colSetList, memB]
  | @cons c td cs' tds' hcf hrest ih =>
    rw [colSetList, memB_append]
    constructor
    · rintro ⟨u, hu, hsome⟩
      rcases List.mem_cons.1 hu with h1 | h1
      · rw [h1] at hsome
        rw [(uFacts_present_iff c td hcf k).1 hsome]
        rfl
      · rw [ih.1 ⟨u, h1, hsome⟩]
        simp
    · intro h1
      rcases Bool.or_eq_true_iff.1 h1 with h2 | h2
      · exact ⟨td, by simp, (uFacts_present_iff c td hcf k).2 h2⟩
      · obtain ⟨u, hu, hsome⟩ := ih.2 h2
        exact ⟨u, by simp [hu], hsome⟩

theorem agg_cat {V : Type} (k : String) :
    ∀ (cs : List (Tree V)) (tds : List (Table V)),
      List.Forall₂ (uFacts []) cs tds →
      (∀ c ∈ cs, 0 < leaves c → memB (colSet c) k = true) →
      ((tds.map (fun td => (alookup td k).getD [])).flatten.length =
        leavesList cs) ∧
      (∀ i, i < leavesList cs →
        nth ((tds.map (fun td => (alookup td k).getD [])).flatten) i =
          rowValList cs i k) := by
  intro cs tds h
  induction h with
  | nil =>
    intro _
    refine ⟨by simp [leavesList], ?_⟩
    intro i hi
    simp [leavesList] at hi
  | @cons c td cs' tds' hcf hrest ih =>
    intro hcols
    have ihc := ih (fun c' hc' hp' => hcols c' (by simp [hc']) hp')
    simp only [List.map_cons, List.flatten_cons]
    rcases Nat.eq_zero_or_pos (leaves c) with hz | hp
    · have habs : alookup td k = none := uFacts_absent_of_zero c td hcf hz k
      rw [habs]
      simp only [Option.getD_none, List.nil_append]
      refine ⟨by rw [ihc.1, leavesList, hz]; omega, ?_⟩
      intro i hi
      rw [leavesList, hz] at hi
      rw [ihc.2 i (by omega)]
      rw [rowValList]
      rw [if_neg (by omega), hz]
      congr 1
    · have hkmem := hcols c (by simp) hp
      have hsome := (uFacts_present_iff c td hcf k).2 hkmem
      obtain ⟨col, hcol⟩ := Option.isSome_iff_exists.1 hsome
      have hlen : col.length = leaves c := hcf.2.2.1 k col hcol
      rw [hcol]
      simp only [Option.getD_some]
      refine ⟨by rw [List.length_append, ihc.1, hlen, leavesList], ?_⟩
      intro i hi
      rw [nth_append_cases]
      rw [leavesList] at hi
      rw [rowValList]
      by_cases hic : i < leaves c
      · rw [if_pos (by omega), if_pos hic]
        exact hcf.2.2.2 k col i hcol hic
      · rw [if_neg (by omega), if_neg hic, hlen]
        exact ihc.2 (i - leaves c) (by omega)

theorem rowVal_branch_oor {V : Type} (ty : String) (nid : Nat)
    (visit : Dict V) (cs : List (Tree V)) (extra : Dict V) (i : Nat)
    (k : String) :
    rowVal (Tree.mk ty nid visit false cs) extra i k =
      oor (alookup (mergeIf extra visit) k) (rowValList cs i k) := by
  rw [rowVal]
  cases alookup (mergeIf extra visit) k <;> simp [oor]

theorem alookup_mergeIf_isSome {V : Type} (e v : Dict V) (k : String) :
    (alookup (mergeIf e v) k).isSome =
      (memB (keysOf v) k || memB (keysOf e) k) := by
  rw [alookup_mergeIf, oor_isSome, alookup_isSome_eq_memB,
    alookup_isSome_eq_memB]

theorem uniform_kall {V : Type} (k : String) (cs : List (Tree V))
    (hsame : sameColsListB
      ((cs.filter (fun c => leaves c != 0)).map colSet) = true)
    (hk : memB (colSetList cs) k = true) :
    ∀ c ∈ cs, 0 < leaves c → memB (colSet c) k = true := by
  obtain ⟨cstar, hcstar, hkstar⟩ := memB_colSetList_exists k cs hk
  have hposstar : 0 < leaves cstar := by
    rcases Nat.eq_zero_or_pos (leaves cstar) with h0 | hp
    · rw [leaves_zero_colSet cstar h0] at hkstar
      simp [memB] at hkstar
    · exact hp
  intro c hc hpos
  have hmem1 : colSet cstar ∈
      (cs.filter (fun c => leaves c != 0)).map colSet :=
    List.mem_map.2 ⟨cstar,
      List.mem_filter.2 ⟨hcstar, by simp; omega⟩, rfl⟩
  have hmem2 : colSet c ∈
      (cs.filter (fun c => leaves c != 0)).map colSet :=
    List.mem_map.2 ⟨c, List.mem_filter.2 ⟨hc, by simp; omega⟩, rfl⟩
  exact sameCols_transfer k _ (colSet cstar) (colSet c) hsame hmem1 hmem2
    hkstar

mutual

theorem main_node {V : Type} :
    ∀ (t : Tree V) (extra : Dict V),
      wfB t = true → uniformB t = true → nodupB (keysOf extra) = true →
      ∃ T, exportNode t extra = .ok T ∧ uFacts extra t T
  | .mk ty nid visit true cs, extra, hwf, huni, hex => by
    simp only [wfB, Bool.and_eq_true] at hwf
    refine ⟨(mergeIf extra visit).map (fun kv => (kv.1, [kv.2])), ?_, ?_⟩
    · rw [exportNode]
      rfl
    · have hleq : leaves (Tree.mk ty nid visit true cs) = 1 := by
        rw [leaves]
      have hcseq : colSet (Tree.mk ty nid visit true cs) = keysOf visit := by
        rw [colSet]
      refine ⟨?_, ?_, ?_, ?_⟩
      · rw [keysOf_map_keyfix (fun kv => (kv.1, [kv.2])) (fun kv => rfl)]
        exact nodupB_keys_mergeIf extra visit hex hwf.1.1
      · intro k
        rw [alookup_rowify, hleq, hcseq]
        have hiso : ((alookup (mergeIf extra visit) k).map
            (fun v => [v])).isSome = (alookup (mergeIf extra visit) k).isSome := by
          cases alookup (mergeIf extra visit) k <;> rfl
        rw [hiso, alookup_mergeIf_isSome]
        constructor
        · intro h
          exact ⟨by omega, Bool.or_eq_true_iff.1 h⟩
        · rintro ⟨_, h⟩
          exact Bool.or_eq_true_iff.2 h
      · intro k col h
        rw [alookup_rowify] at h
        cases hnd : alookup (mergeIf extra visit) k with
        | none =>
          rw [hnd] at h
          have h2 : (none : Option (List V)) = some col := h
          exact Option.noConfusion h2
        | some v =>
          rw [hnd] at h
          have h3 : ([v] : List V) = col := Option.some.inj h
          rw [← h3, hleq]
          rfl
      · intro k col i h hi
        rw [hleq] at hi
        have hi0 : i = 0 := by omega
        subst hi0
        rw [alookup_rowify] at h
        cases hnd : alookup (mergeIf extra visit) k with
        | none =>
          rw [hnd] at h
          have h2 : (none : Option (List V)) = some col := h
          exact Option.noConfusion h2
        | some v =>
          rw [hnd] at h
          have h3 : ([v] : List V) = col := Option.some.inj h
          rw [← h3, rowVal, hnd]
          rfl
  | .mk ty nid visit false cs, extra, hwf, huni, hex => by
    simp only [wfB, Bool.and_eq_true] at hwf
    rw [uniformB, Bool.and_eq_true] at huni
    obtain ⟨tds, hct, hfor⟩ := main_children cs hwf.2 huni.1
    obtain ⟨d, hd⟩ : ∃ d, tds.foldl extendTable [] = d := ⟨_, rfl⟩
    have hnodups := forall₂_right_nodup_u [] cs tds hfor
    have hd_nodup : nodupB (keysOf d) = true := by
      rw [← hd]
      exact nodupB_keys_foldl_extendTable tds [] rfl
    have hexp : exportChildrenAux cs [] = .ok d := by
      rw [exportChildrenAux_eq_childTables, hct]
      simp only [Except.map]
      rw [hd]
    have hdlook : ∀ k, alookup d k =
        tds.foldl (fun o td => mergeColOpt o (alookup td k)) none := by
      intro k
      rw [← hd, alookup_foldl_extendTable tds [] k hnodups]
      rfl
    have hpres_d : ∀ k, (alookup d k).isSome = true ↔
        memB (colSetList cs) k = true := by
      intro k
      rw [hdlook k, foldTD_isSome]
      rw [← agg_presence k cs tds hfor]
      constructor
      · rintro (h | h)
        · simp at h
        · exact h
      · intro h
        exact Or.inr h
    have hcol_d : ∀ k col, alookup d k = some col →
        col = (tds.map (fun td => (alookup td k).getD [])).flatten := by
      intro k col h
      have hg := foldTD_getD k tds none
      rw [← hdlook k, h] at hg
      simpa using hg
    have hleq : leaves (Tree.mk ty nid visit false cs) = leavesList cs := by
      rw [leaves]
    rcases Nat.eq_zero_or_pos (leavesList cs) with hL | hL
    · -- no reachable leaves: the aggregate is empty, the node vanishes
      have hdnil : d = [] := by
        cases hdd : d with
        | nil => rfl
        | cons c0 rest =>
          exfalso
          have hsome : (alookup d c0.1).isSome = true := by
            rw [hdd, alookup_cons, if_pos rfl]
            rfl
          obtain ⟨cx, hcx, hkx⟩ :=
            memB_colSetList_exists c0.1 cs ((hpres_d c0.1).1 hsome)
          have hposx : 0 < leaves cx := by
            rcases Nat.eq_zero_or_pos (leaves cx) with h0 | hp
            · rw [leaves_zero_colSet cx h0] at hkx
              simp [memB] at hkx
            · exact hp
          have := leaves_le_of_mem cs cx hcx
          omega
      refine ⟨[], ?_, ?_, ?_, ?_, ?_⟩
      · rw [exportNode, hexp, hdnil]
        rfl
      · rfl
      · intro k
        rw [hleq, hL]
        simp [alookup]
      · intro k col h
        simp [alookup] at h
      · intro k col i h
        simp [alookup] at h
    · -- leaves exist: aggregation and broadcast succeed
      have hkall : ∀ k, memB (colSetList cs) k = true →
          ∀ c ∈ cs, 0 < leaves c → memB (colSet c) k = true :=
        fun k hk => uniform_kall k cs huni.2 hk
      have hlen_d : ∀ col ∈ d, col.2.length = leavesList cs := by
        intro col hcol
        have hlk := alookup_of_mem_nodup d hd_nodup col hcol
        have hsome : (alookup d col.1).isSome = true := by
          rw [hlk]; rfl
        have hmemcs := (hpres_d col.1).1 hsome
        have hcat := agg_cat col.1 cs tds hfor (hkall col.1 hmemcs)
        rw [hcol_d col.1 col.2 hlk]
        exact hcat.1
      have hck : checkRowCount d = .ok (some (leavesList cs)) := by
        cases hdd : d with
        | nil =>
          exfalso
          have hne := colSetList_nonempty cs huni.1 hL
          cases hcsl : colSetList cs with
          | nil => exact hne hcsl
          | cons k0 ks =>
            have hmem : memB (colSetList cs) k0 = true := by
              rw [hcsl, memB]
              simp
            have := (hpres_d k0).2 hmem
            rw [hdd] at this
            simp [alookup] at this
        | cons c0 rest =>
          rw [checkRowCount]
          simp only [List.map_cons]
          rw [goRC]
          have h0 : c0.2.length = leavesList cs :=
            hlen_d c0 (by rw [hdd]; simp)
          rw [h0]
          refine goRC_some_of_all (rest.map (·.2)) (leavesList cs) ?_
          intro v hv
          obtain ⟨c, hc, hceq⟩ := List.mem_map.1 hv
          rw [← hceq]
          exact hlen_d c (by rw [hdd]; simp [hc])
      have hnd_nodup : nodupB (keysOf (mergeIf extra visit)) = true :=
        nodupB_keys_mergeIf extra visit hex hwf.1.1
      have hTlook := fun k =>
        alookup_broadcast (mergeIf extra visit) d (leavesList cs) k
          hnd_nodup
      have hTsome : ∀ k v, alookup (mergeIf extra visit) k = some v →
          alookup (broadcast d (mergeIf extra visit) (leavesList cs)) k =
            some (List.replicate (leavesList cs) v) := by
        intro k v hv
        rw [hTlook k, hv]
      have hTnone : ∀ k, alookup (mergeIf extra visit) k = none →
          alookup (broadcast d (mergeIf extra visit) (leavesList cs)) k =
            alookup d k := by
        intro k hv
        rw [hTlook k, hv]
      have hcseq : colSet (Tree.mk ty nid visit false cs) =
          colSetList cs ++ keysOf visit := by
        rw [colSet, if_neg (by omega)]
      refine ⟨broadcast d (mergeIf extra visit) (leavesList cs), ?_,
        ?_, ?_, ?_, ?_⟩
      · rw [exportNode, hexp]
        dsimp only
        rw [hck]
        rfl
      · exact nodupB_keys_broadcast (mergeIf extra visit) d
          (leavesList cs) hd_nodup
      · intro k
        rw [hleq, hcseq]
        cases hnd : alookup (mergeIf extra visit) k with
        | some v =>
          rw [hTsome k v hnd]
          constructor
          · intro _
            refine ⟨hL, ?_⟩
            have hk2 : (memB (keysOf visit) k || memB (keysOf extra) k) =
                true := by
              rw [← alookup_mergeIf_isSome, hnd]
              rfl
            rcases Bool.or_eq_true_iff.1 hk2 with h1 | h1
            · exact Or.inl (by rw [memB_append, h1]; simp)
            · exact Or.inr h1
          · intro _
            rfl
        | none =>
          rw [hTnone k hnd]
          have hk2 : (memB (keysOf visit) k || memB (keysOf extra) k) =
              false := by
            rw [← alookup_mergeIf_isSome, hnd]
            rfl
          have hkv : memB (keysOf visit) k = false := by
            cases hx : memB (keysOf visit) k
            · rfl
            · rw [hx] at hk2; simp at hk2
          have hke : memB (keysOf extra) k = false := by
            cases hx : memB (keysOf extra) k
            · rfl
            · rw [hx] at hk2; simp at hk2
          rw [hpres_d k, memB_append, hkv, hke]
          simp [hL]
      · intro k col h
        cases hnd : alookup (mergeIf extra visit) k with
        | some v =>
          rw [hTsome k v hnd] at h
          simp only [Option.some_inj] at h
          rw [← h, List.length_replicate, hleq]
        | none =>
          rw [hTnone k hnd] at h
          have hsome : (alookup d k).isSome = true := by rw [h]; rfl
          have hmemcs := (hpres_d k).1 hsome
          have hcat := agg_cat k cs tds hfor (hkall k hmemcs)
          rw [hcol_d k col h, hleq]
          exact hcat.1
      · intro k col i h hi
        rw [hleq] at hi
        cases hnd : alookup (mergeIf extra visit) k with
        | some v =>
          rw [hTsome k v hnd] at h
          simp only [Option.some_inj] at h
          rw [← h, nth_replicate v (leavesList cs) i hi]
          rw [rowVal_branch_oor, hnd]
          rfl
        | none =>
          rw [hTnone k hnd] at h
          have hsome : (alookup d k).isSome = true := by rw [h]; rfl
          have hmemcs := (hpres_d k).1 hsome
          have hcat := agg_cat k cs tds hfor (hkall k hmemcs)
          rw [hcol_d k col h]
          rw [hcat.2 i hi]
          rw [rowVal_branch_oor, hnd]
          rfl

theorem main_children {V : Type} :
    ∀ (cs : List (Tree V)), wfListB cs = true → uniformListB cs = true →
      ∃ tds, childTables cs = .ok tds ∧ List.Forall₂ (uFacts []) cs tds
  | [], _, _ => ⟨[], by rw [childTables], List.Forall₂.nil⟩
  | c :: rest, hwf, huni => by
    rw [wfListB, Bool.and_eq_true] at hwf
    rw [uniformListB, Bool.and_eq_true] at huni
    obtain ⟨td, hc, hcf⟩ := main_node c [] hwf.1 huni.1 rfl
    obtain ⟨tds2, hr, hfor⟩ := main_children rest hwf.2 huni.2
    exact ⟨td :: tds2, by rw [childTables, hc, hr], List.Forall₂.cons hcf hfor⟩

end

theorem chainTo_cons_elim {V : Type} (t : Tree V) (i : Nat) (p : List Nat)
    (ancs : List (Tree V)) (tgt : Tree V)
    (h : chainTo t (i :: p) = some (ancs, tgt)) :
    ∃ c ancs2, nth t.children i = some c ∧
      chainTo c p = some (ancs2, tgt) ∧ ancs = t :: ancs2 := by
  rw [chainTo] at h
  cases hn : nth t.children i with
  | none => rw [hn] at h; simp at h
  | some c =>
    rw [hn] at h
    dsimp only at h
    cases hc : chainTo c p with
    | none => rw [hc] at h; simp at h
    | some pr =>
      obtain ⟨ancs2, tgt2⟩ := pr
      rw [hc] at h
      simp only [Option.some_inj, Prod.mk.injEq] at h
      exact ⟨c, ancs2, rfl, by rw [hc, h.2], h.1.symm⟩

theorem wfListB_mem {V : Type} :
    ∀ (cs : List (Tree V)) (c : Tree V), wfListB cs = true → c ∈ cs →
      wfB c = true
  | [], c, _, hc => by simp at hc
  | c0 :: rest, c, hwf, hc => by
    rw [wfListB, Bool.and_eq_true] at hwf
    rcases List.mem_cons.1 hc with h | h
    · rw [h]; exact hwf.1
    · exact wfListB_mem rest c hwf.2 h

theorem uniformListB_mem {V : Type} :
    ∀ (cs : List (Tree V)) (c : Tree V), uniformListB cs = true → c ∈ cs →
      uniformB c = true
  | [], c, _, hc => by simp at hc
  | c0 :: rest, c, huni, hc => by
    rw [uniformListB, Bool.and_eq_true] at huni
    rcases List.mem_cons.1 hc with h | h
    · rw [h]; exact huni.1
    · exact uniformListB_mem rest c huni.2 h

theorem chain_branch_shape {V : Type} (ty : String) (nid : Nat)
    (visit : Dict V) (isLeaf : Bool) (cs : List (Tree V)) (i : Nat)
    (c : Tree V) (hwf : wfB (Tree.mk ty nid visit isLeaf cs) = true)
    (hn : nth (Tree.mk ty nid visit isLeaf cs).children i = some c) :
    isLeaf = false := by
  cases hb : isLeaf with
  | false => rfl
  | true =>
    rw [hb] at hwf
    simp only [wfB, Bool.and_eq_true] at hwf
    have hemp : cs.isEmpty = true := by
      have := hwf.1.2
      simpa using this
    have hcs : cs = [] := by
      cases cs
      · rfl
      · simp [List.isEmpty] at hemp
    rw [Tree.children, hcs] at hn
    simp [nth] at hn

theorem chain_target_props {V : Type} :
    ∀ (p : List Nat) (t : Tree V) (ancs : List (Tree V)) (tgt : Tree V),
      wfB t = true → uniformB t = true →
      chainTo t p = some (ancs, tgt) →
      wfB tgt = true ∧ uniformB tgt = true ∧
        ∀ a ∈ ancs, nodupB (keysOf a.visit) = true
  | [], t, ancs, tgt, hwf, huni, hchain => by
    rw [chainTo] at hchain
    simp only [Option.some_inj, Prod.mk.injEq] at hchain
    rw [← hchain.2, ← hchain.1]
    exact ⟨hwf, huni, by intro a ha; simp at ha⟩
  | i :: p, t, ancs, tgt, hwf, huni, hchain => by
    obtain ⟨c, ancs2, hn, hc, hancs⟩ := chainTo_cons_elim t i p ancs tgt hchain
    obtain ⟨ty, nid, visit, isLeaf, cs⟩ := t
    have hbranch := chain_branch_shape ty nid visit isLeaf cs i c hwf hn
    subst hbranch
    simp only [wfB, Bool.and_eq_true] at hwf
    rw [uniformB, Bool.and_eq_true] at huni
    have hcm : c ∈ cs := nth_mem _ i c (by rw [Tree.children] at hn; exact hn)
    have hwfc : wfB c = true := wfListB_mem cs c hwf.2 hcm
    have hunic : uniformB c = true := uniformListB_mem cs c huni.1 hcm
    have ih := chain_target_props p c ancs2 tgt hwfc hunic hc
    refine ⟨ih.1, ih.2.1, ?_⟩
    intro a ha
    rw [hancs] at ha
    rcases List.mem_cons.1 ha with h | h
    · rw [h, Tree.visit]
      exact hwf.1.1
    · exact ih.2.2 a h

theorem chain_leaves_bound {V : Type} :
    ∀ (p : List Nat) (t : Tree V) (ancs : List (Tree V)) (tgt : Tree V),
      wfB t = true → chainTo t p = some (ancs, tgt) →
      leavesBefore t p + leaves tgt ≤ leaves t
  | [], t, ancs, tgt, _, hchain => by
    rw [chainTo] at hchain
    simp only [Option.some_inj, Prod.mk.injEq] at hchain
    rw [← hchain.2, leavesBefore]
    omega
  | i :: p, t, ancs, tgt, hwf, hchain => by
    obtain ⟨c, ancs2, hn, hc, hancs⟩ := chainTo_cons_elim t i p ancs tgt hchain
    obtain ⟨ty, nid, visit, isLeaf, cs⟩ := t
    have hbranch := chain_branch_shape ty nid visit isLeaf cs i c hwf hn
    subst hbranch
    simp only [wfB, Bool.and_eq_true] at hwf
    rw [Tree.children] at hn
    have hwfc : wfB c = true :=
      wfListB_mem cs c hwf.2 (nth_mem _ i c hn)
    have ih := chain_leaves_bound p c ancs2 tgt hwfc hc
    have htake := leavesList_take_nth cs i c hn
    rw [leavesBefore]
    rw [show (Tree.mk ty nid visit false cs).children = cs from rfl]
    rw [hn]
    rw [show leaves (Tree.mk ty nid visit false cs) = leavesList cs from
      by rw [leaves]]
    dsimp only
    omega

theorem rowValList_at {V : Type} (k : String) :
    ∀ (cs : List (Tree V)) (i : Nat) (c : Tree V) (m : Nat),
      nth cs i = some c → m < leaves c →
      rowValList cs (leavesList (cs.take i) + m) k = rowVal c [] m k
  | [], i, c, m, hn, _ => by simp [nth] at hn
  | c0 :: rest, 0, c, m, hn, hm => by
    rw [nth] at hn
    simp only [Option.some_inj] at hn
    rw [← hn] at hm ⊢
    simp only [List.take_zero, leavesList]
    rw [rowValList]
    rw [if_pos (by omega)]
    congr 1
    omega
  | c0 :: rest, i + 1, c, m, hn, hm => by
    rw [nth] at hn
    simp only [List.take_succ_cons, leavesList]
    rw [rowValList]
    rw [if_neg (by omega)]
    have harith : leaves c0 + leavesList (rest.take i) + m - leaves c0 =
        leavesList (rest.take i) + m := by omega
    rw [harith]
    exact rowValList_at k rest i c m hn hm

theorem mergeIf_nil {V : Type} (visit : Dict V) :
    mergeIf [] visit = visit := rfl

theorem noShadow_disjoint {V : Type} (tgt : Tree V) (ancs : List (Tree V))
    (hns : noShadowB tgt ancs = true) (k : String)
    (hk : memB (keysOf tgt.visit) k = true) :
    chainLook (ancs.map Tree.visit) k = none := by
  rw [noShadowB, List.all_eq_true] at hns
  have hkm : k ∈ keysOf tgt.visit := (memB_iff_mem _ k).1 hk
  have hall := hns k hkm
  rw [List.all_eq_true] at hall
  apply chainLook_none_of_all
  intro d hd
  obtain ⟨a, ha, hav⟩ := List.mem_map.1 hd
  have := hall a ha
  rw [← hav]
  cases hmb : memB (keysOf a.visit) k with
  | false => rfl
  | true => rw [hmb] at this; simp at this

theorem keys_replay_sub {V : Type} (ds : List (Dict V)) (k : String)
    (h : memB (keysOf (replay ds)) k = true) :
    ∃ d ∈ ds, memB (keysOf d) k = true := by
  have h1 : (alookup (replay ds) k).isSome = true := by
    rw [alookup_isSome_eq_memB]; exact h
  rw [alookup_replay] at h1
  exact chainLook_isSome_exists k ds h1

theorem rowVal_shadow {V : Type} (tgt : Tree V) (avs : List (Dict V))
    (i : Nat) (k : String)
    (hdisj : ∀ k2, memB (keysOf tgt.visit) k2 = true →
      chainLook avs k2 = none) :
    rowVal tgt (replay avs) i k =
      oor (chainLook avs k) (rowVal tgt [] i k) := by
  obtain ⟨ty, nid, visit, isLeaf, cs⟩ := tgt
  have hv : Tree.visit (Tree.mk ty nid visit isLeaf cs) = visit := rfl
  cases isLeaf with
  | true =>
    rw [rowVal, rowVal, alookup_mergeIf, alookup_mergeIf, alookup_replay]
    rw [show alookup ([] : Dict V) k = (none : Option V) from rfl,
      oor_none_right]
    cases hvk : alookup visit k with
    | some v =>
      have hmem : memB (keysOf visit) k = true := by
        rw [← alookup_isSome_eq_memB, hvk]; rfl
      rw [hdisj k (by rw [hv]; exact hmem)]
      rfl
    | none =>
      rw [oor_none_right]
      rfl
  | false =>
    rw [rowVal_branch_oor, rowVal_branch_oor, alookup_mergeIf,
      alookup_mergeIf, alookup_replay]
    rw [show alookup ([] : Dict V) k = (none : Option V) from rfl,
      oor_none_right]
    cases hvk : alookup visit k with
    | some v =>
      have hmem : memB (keysOf visit) k = true := by
        rw [← alookup_isSome_eq_memB, hvk]; rfl
      rw [hdisj k (by rw [hv]; exact hmem)]
      rfl
    | none => rfl

theorem chain_colSet_mono {V : Type} :
    ∀ (p : List Nat) (t : Tree V) (ancs : List (Tree V)) (tgt : Tree V)
      (k : String), wfB t = true → chainTo t p = some (ancs, tgt) →
      0 < leaves tgt →
      (memB (colSet tgt) k = true → memB (colSet t) k = true) ∧
      (∀ a ∈ ancs, memB (keysOf a.visit) k = true →
        memB (colSet t) k = true)
  | [], t, ancs, tgt, k, _, hchain, _ => by
    rw [chainTo] at hchain
    simp only [Option.some_inj, Prod.mk.injEq] at hchain
    rw [← hchain.2, ← hchain.1]
    exact ⟨fun h => h, by intro a ha; simp at ha⟩
  | i :: p, t, ancs, tgt, k, hwf, hchain, hpos => by
    obtain ⟨c, ancs2, hn, hc, hancs⟩ := chainTo_cons_elim t i p ancs tgt hchain
    obtain ⟨ty, nid, visit, isLeaf, cs⟩ := t
    have hbranch := chain_branch_shape ty nid visit isLeaf cs i c hwf hn
    subst hbranch
    simp only [wfB, Bool.and_eq_true] at hwf
    rw [Tree.children] at hn
    have hcm : c ∈ cs := nth_mem _ i c hn
    have hwfc : wfB c = true := wfListB_mem cs c hwf.2 hcm
    have ih := chain_colSet_mono p c ancs2 tgt k hwfc hc hpos
    have hposc : 0 < leaves c := by
      have := chain_leaves_bound p c ancs2 tgt hwfc hc
      omega
    have hposcs : leavesList cs ≠ 0 := by
      have := leaves_le_of_mem cs c hcm
      omega
    have hcolt : colSet (Tree.mk ty nid visit false cs) =
        colSetList cs ++ keysOf visit := by
      rw [colSet, if_neg hposcs]
    constructor
    · intro h
      rw [hcolt, memB_append]
      have := memB_colSetList_of_mem k cs c hcm (ih.1 h)
      rw [this]
      rfl
    · intro a ha hk
      rw [hancs] at ha
      rcases List.mem_cons.1 ha with h | h
      · rw [h, Tree.visit] at hk
        rw [hcolt, memB_append, hk]
        simp
      · rw [hcolt, memB_append]
        have := memB_colSetList_of_mem k cs c hcm (ih.2 a h hk)
        rw [this]
        rfl

theorem chain_bridge {V : Type} :
    ∀ (p : List Nat) (t : Tree V) (ancs : List (Tree V)) (tgt : Tree V)
      (i : Nat) (k : String), wfB t = true →
      chainTo t p = some (ancs, tgt) → i < leaves tgt →
      rowVal t [] (leavesBefore t p + i) k =
        oor (chainLook (ancs.map Tree.visit) k) (rowVal tgt [] i k)
  | [], t, ancs, tgt, i, k, _, hchain, _ => by
    rw [chainTo] at hchain
    simp only [Option.some_inj, Prod.mk.injEq] at hchain
    rw [← hchain.2, ← hchain.1, leavesBefore]
    rw [show ([] : List (Tree V)).map Tree.visit = [] from rfl]
    rw [show chainLook ([] : List (Dict V)) k = none from rfl]
    rw [show oor (none : Option V) (rowVal t [] i k) = rowVal t [] i k
      from rfl]
    rw [Nat.zero_add]
  | i0 :: p, t, ancs, tgt, i, k, hwf, hchain, hi => by
    obtain ⟨c, ancs2, hn, hc, hancs⟩ := chainTo_cons_elim t i0 p ancs tgt hchain
    obtain ⟨ty, nid, visit, isLeaf, cs⟩ := t
    have hbranch := chain_branch_shape ty nid visit isLeaf cs i0 c hwf hn
    subst hbranch
    simp only [wfB, Bool.and_eq_true] at hwf
    rw [Tree.children] at hn
    have hcm : c ∈ cs := nth_mem _ i0 c hn
    have hwfc : wfB c = true := wfListB_mem cs c hwf.2 hcm
    have ih := chain_bridge p c ancs2 tgt i k hwfc hc hi
    have hbound := chain_leaves_bound p c ancs2 tgt hwfc hc
    have hlb : leavesBefore (Tree.mk ty nid visit false cs) (i0 :: p) =
        leavesList (cs.take i0) + leavesBefore c p := by
      rw [leavesBefore]
      rw [show (Tree.mk ty nid visit false cs).children = cs from rfl]
      rw [hn]
    rw [hlb]
    rw [rowVal_branch_oor]
    rw [show mergeIf ([] : Dict V) visit = visit from rfl]
    have harith : leavesList (cs.take i0) + leavesBefore c p + i =
        leavesList (cs.take i0) + (leavesBefore c p + i) := by omega
    rw [harith]
    rw [rowValList_at k cs i0 c (leavesBefore c p + i) hn (by omega)]
    rw [ih]
    rw [hancs]
    rw [show (Tree.mk ty nid visit false cs :: ancs2).map Tree.visit =
      visit :: ancs2.map Tree.visit from rfl]
    rw [chainLook_cons]
    rw [oor_assoc]


/-- A tree in which the subtree node shadows an ancestor key: root
`"Study"` declares column `"a" = "r"`, its child `"Visit"` also declares
`"a" = "b"`, below which sits one leaf. -/
def c2shadowTree : Tree String :=
  Tree.mk "Study" 0 [("a", "r")] false
    [Tree.mk "Visit" 1 [("a", "b")] false
      [Tree.mk "Input" 2 [("x", "1")] true []]]

/-- A shadow-free tree for the amended C2: root `"Study"` declares
`"s"`, child `"Visit"` declares `"b"`, and two leaves declare `"k"`. -/
def c2okTree : Tree String :=
  Tree.mk "Study" 0 [("s", "1")] false
    [Tree.mk "Visit" 1 [("b", "2")] false
      [Tree.mk "Input" 2 [("k", "a")] true [],
       Tree.mk "Input" 3 [("k", "c")] true []]]

/-- The `"Visit"` node of `c2okTree`, the target of path `[0]`. -/
def c2okTgt : Tree String :=
  Tree.mk "Visit" 1 [("b", "2")] false
    [Tree.mk "Input" 2 [("k", "a")] true [],
     Tree.mk "Input" 3 [("k", "c")] true []]

/-- Counterexample to C2 as stated: on a well-formed uniform tree whose
subtree node shadows an ancestor's column key, the subtree export's rows
do not carry identical ancestor-derived column values.  In the full
export the shallower ancestor `"Study"` broadcasts `"a" = "r"` over the
leaf row, but the subtree export of `"Visit"` keeps its own deeper value
`"a" = "b"` (its visitor output overrides the replayed inherited
context), so column `"a"` reads `["r"]` in the full export and `["b"]`
in the subtree export. -/
theorem c2_counterexample :
    wfB c2shadowTree = true ∧ uniformB c2shadowTree = true ∧
    exportNode c2shadowTree [] = .ok [("x", ["1"]), ("a", ["r"])] ∧
    exportSubtree c2shadowTree [0] = .ok [("x", ["1"]), ("a", ["b"])] ∧
    (["r"] : List String) ≠ ["b"] := by
  refine ⟨?_, ?_, ?_, ?_, by decide⟩
  · simp [c2shadowTree, wfB, wfListB, nodupB, memB, keysOf]
  · simp [c2shadowTree, uniformB, uniformListB, sameColsListB, colSet,
      colSetList, leaves, leavesList, seteqB, subsetB, memB, keysOf]
  · simp [c2shadowTree, exportNode, exportChildrenAux, extendTable,
      dextend, alookup, mergeIf, checkRowCount, goRC, broadcast, aset,
      pyMerge, keysOf]
  · simp [c2shadowTree, exportSubtree, chainTo, nth, Tree.children,
      Tree.visit, replay, pyMerge, alookup, exportNode,
      exportChildrenAux, extendTable, dextend, mergeIf, checkRowCount,
      goRC, broadcast, aset, keysOf]

/-- C2 (amended): for a well-formed uniform tree, provided the subtree
node's own visitor keys do not shadow any strict ancestor's visitor
keys, the subtree export succeeds and returns exactly the block of rows
the full export attributes to the target's leaf descendants — the
target's leaf count many rows, and every column of the subtree table is
the corresponding slice (drop the leaves left of the path, take the
target's leaf count) of a column of the full export, so all
ancestor-derived column values agree row for row.  Without the
no-shadowing proviso the ancestor-derived values can differ
(`c2_counterexample`). -/
theorem c2_subtree_refines_full {V : Type} (t : Tree V) (p : List Nat)
    (ancs : List (Tree V)) (tgt : Tree V)
    (hwf : wfB t = true) (huni : uniformB t = true)
    (hchain : chainTo t p = some (ancs, tgt)) (hne : p ≠ [])
    (hns : noShadowB tgt ancs = true) :
    ∃ F S, exportNode t [] = .ok F ∧ exportSubtree t p = .ok S ∧
      rowCount S = leaves tgt ∧
      ∀ k col, alookup S k = some col →
        ∃ colF, alookup F k = some colF ∧
          col = (colF.drop (leavesBefore t p)).take (leaves tgt) := by
  have props := chain_target_props p t ancs tgt hwf huni hchain
  have hvs_nodup : ∀ d ∈ ancs.map Tree.visit, nodupB (keysOf d) = true := by
    intro d hd
    obtain ⟨a, ha, hav⟩ := List.mem_map.1 hd
    rw [← hav]
    exact props.2.2 a ha
  have hpd := replay_nodup (ancs.map Tree.visit) hvs_nodup
  obtain ⟨F, hF, hFf⟩ := main_node t [] hwf huni rfl
  obtain ⟨S, hS0, hSf⟩ :=
    main_node tgt (replay (ancs.map Tree.visit)) props.1 props.2.1 hpd
  have hSx : exportSubtree t p = .ok S := by
    rw [exportSubtree, hchain]
    have hancsne := chainTo_cons_ne_nil t p ancs tgt hne hchain
    cases ancs with
    | nil => exact absurd rfl hancsne
    | cons a rest =>
      dsimp only
      exact hS0
  have hrc : rowCount S = leaves tgt := by
    cases hS : S with
    | nil =>
      rw [rowCount]
      by_contra hzero
      have hpos : 0 < leaves tgt := by omega
      have hcol := colSet_nonempty tgt props.2.1 hpos
      cases hcs : colSet tgt with
      | nil => exact hcol hcs
      | cons k0 ks =>
        have hk0 : memB (colSet tgt) k0 = true := by
          rw [hcs]
          simp [memB]
        have hks := (hSf.2.1 k0).2 ⟨hpos, Or.inl hk0⟩
        rw [hS] at hks
        simp [alookup, Option.isSome] at hks
    | cons c0 rest =>
      rw [rowCount]
      have hl := alookup_of_mem_nodup (c0 :: rest)
        (by rw [← hS]; exact hSf.1) c0 (List.mem_cons_self c0 rest)
      rw [← hS] at hl
      exact hSf.2.2.1 c0.1 c0.2 hl
  refine ⟨F, S, hF, hSx, hrc, ?_⟩
  intro k col hcol
  have hsome : (alookup S k).isSome = true := by rw [hcol]; rfl
  obtain ⟨hpos_tgt, hdisc⟩ := (hSf.2.1 k).1 hsome
  have hmono := chain_colSet_mono p t ancs tgt k hwf hchain hpos_tgt
  have hmemt : memB (colSet t) k = true := by
    rcases hdisc with h | h
    · exact hmono.1 h
    · obtain ⟨d, hd, hdk⟩ := keys_replay_sub (ancs.map Tree.visit) k h
      obtain ⟨a, ha, hav⟩ := List.mem_map.1 hd
      exact hmono.2 a ha (by rw [hav]; exact hdk)
  have hbound := chain_leaves_bound p t ancs tgt hwf hchain
  have hpost : 0 < leaves t := by omega
  have hFsome : (alookup F k).isSome = true :=
    (hFf.2.1 k).2 ⟨hpost, Or.inl hmemt⟩
  cases hlookF : alookup F k with
  | none => rw [hlookF] at hFsome; simp at hFsome
  | some colF =>
    refine ⟨colF, rfl, ?_⟩
    have hlenF : colF.length = leaves t := hFf.2.2.1 k colF hlookF
    have hlenS : col.length = leaves tgt := hSf.2.2.1 k col hcol
    apply nth_ext
    · rw [hlenS, List.length_take, List.length_drop, hlenF]
      omega
    · intro i hi
      rw [hlenS] at hi
      rw [hSf.2.2.2 k col i hcol hi]
      rw [nth_take (colF.drop (leavesBefore t p)) (leaves tgt) i hi]
      rw [nth_drop]
      rw [hFf.2.2.2 k colF (leavesBefore t p + i) hlookF (by omega)]
      rw [chain_bridge p t ancs tgt i k hwf hchain hi]
      rw [rowVal_shadow tgt (ancs.map Tree.visit) i k
        (noShadow_disjoint tgt ancs hns)]


/-- Witness for the amended claim C2 at the shadow-free tree `c2okTree`
with path `[0]` targeting its `"Visit"` node. -/
theorem c2_subtree_refines_full_witness :
    ∃ F S, exportNode c2okTree [] = .ok F ∧
      exportSubtree c2okTree [0] = .ok S ∧
      rowCount S = leaves c2okTgt ∧
      ∀ k col, alookup S k = some col →
        ∃ colF, alookup F k = some colF ∧
          col = (colF.drop (leavesBefore c2okTree [0])).take
            (leaves c2okTgt) :=
  c2_subtree_refines_full c2okTree [0] [c2okTree] c2okTgt
    (by simp [c2okTree, wfB, wfListB, nodupB, memB, keysOf])
    (by simp [c2okTree, uniformB, uniformListB, sameColsListB, colSet,
      colSetList, leaves, leavesList, seteqB, subsetB, memB, keysOf])
    (by rfl)
    (by decide)
    (by decide)


theorem exportNodeT_trace_ne_nil {V : Type} (ty : String) (nid : Nat)
    (visit : Dict V) (isLeaf : Bool) (cs : List (Tree V))
    (extra : Dict V) :
    (exportNodeT (Tree.mk ty nid visit isLeaf cs) extra).1 ≠ [] := by
  rw [exportNodeT]
  cases isLeaf with
  | true => simp
  | false =>
    cases hc : exportChildrenAuxT cs [] with
    | mk tr r =>
      cases r with
      | error e => simp
      | ok d => simp

/-- A configuration with valid domain settings, a single annotator, and
no sort key: the traversal then completes before `_annotate` raises. -/
def c6cfg : Config :=
  ⟨some "DM", some "DOMAIN", some "Demographics", [], [], SortBy.none,
    PySortOrder.none, Annotators.one ⟨"SEQ", Option.none⟩, Option.none⟩

/-- A one-leaf tree for the C6 witness. -/
def c6tree : Tree PyVal :=
  Tree.mk "Study" 0 [("x", PyVal.str "1")] true []

/-- C6 (amended): the missing-domain/domain-variable error and the
missing-document-label error for structured export are raised before any
node is visited (empty visit trace), but the two annotator-related
configuration errors are raised only after the whole traversal: when
annotators are configured without a sort key, and when a configured
annotator's header names no schema variable, the export fails with the
respective `InvalidConfigurationError` only after every node of the
graph has been visited (the visit trace is the full, nonempty traversal
trace).  No error in the claim's list is silently defaulted. -/
theorem c6_config_error_timing :
    (∀ (lt : PyVal → PyVal → Bool) (cfg : Config) (t : Tree PyVal),
      domainInvalid cfg = true →
      exportFullT lt cfg t =
        ([], .error "domain and domain_variable must be set")) ∧
    (∀ (lt : PyVal → PyVal → Bool) (cfg : Config) (E : Exporter PyVal),
      cfg.label = Option.none →
      exportToJsonT lt cfg E =
        ([], .error "label attribute is required for json export")) ∧
    (∀ (lt : PyVal → PyVal → Bool) (cfg : Config) (t : Tree PyVal)
      (tr : List (Tree PyVal)) (T : Table PyVal),
      domainInvalid cfg = false →
      annotatorsFalsy cfg.annotators = false →
      sortByFalsy cfg.sortBy = true →
      exportNodeT t [] = (tr, .ok T) →
      exportFullT lt cfg t = (tr, .error "sort by must be set") ∧
        tr ≠ []) ∧
    (∀ (lt : PyVal → PyVal → Bool) (cfg : Config) (t : Tree PyVal)
      (tr : List (Tree PyVal)) (T : Table PyVal) (d4 : DF) (a : AnnSpec),
      domainInvalid cfg = false →
      cfg.annotators = Annotators.one a →
      sortByFalsy cfg.sortBy = false →
      cfg.schema.find? (fun v => v.name = a.header) = Option.none →
      exportNodeT t [] = (tr, .ok T) →
      applySort lt
        (addMissing
          (addConstants
            (setScalar T (cfg.domainVariable.getD "")
              (.str (cfg.domain.getD ""))) cfg.constants) cfg.schema)
        cfg.sortBy cfg.sortOrder = .ok d4 →
      exportFullT lt cfg t =
        (tr, .error "a header must be set on the annotator") ∧
        tr ≠ []) := by
  refine ⟨?_, ?_, ?_, ?_⟩
  · intro lt cfg t h
    rw [exportFullT, if_pos h]
  · intro lt cfg E h
    rw [exportToJsonT, if_pos (by rw [h]; rfl)]
  · intro lt cfg t tr T hdom hann hsb hexp
    constructor
    · rw [exportFullT, if_neg (by rw [hdom]; simp)]
      rw [hexp]
      dsimp only
      rw [postProcess]
      rw [applySort, if_pos hsb]
      dsimp only
      rw [annotateStep, if_neg (by rw [hann]; simp), if_pos hsb]
    · obtain ⟨ty, nid, visit, isLeaf, cs⟩ := t
      have h2 := exportNodeT_trace_ne_nil ty nid visit isLeaf cs []
      rw [hexp] at h2
      exact h2
  · intro lt cfg t tr T d4 a hdom hone hsbf hfind hexp hsort
    constructor
    · rw [exportFullT, if_neg (by rw [hdom]; simp)]
      rw [hexp]
      dsimp only
      rw [postProcess]
      rw [hsort]
      dsimp only
      rw [annotateStep, if_neg (by rw [hone]; simp [annotatorsFalsy]),
        if_neg (by rw [hsbf]; simp)]
      rw [hone]
      dsimp only
      rw [seqAnnotate]
      rw [hfind]
    · obtain ⟨ty, nid, visit, isLeaf, cs⟩ := t
      have h2 := exportNodeT_trace_ne_nil ty nid visit isLeaf cs []
      rw [hexp] at h2
      exact h2

/-- Witness for the amended claim C6: with a configured annotator and no
sort key, the export of a one-leaf tree fails with "sort by must be set"
only after visiting the leaf — the visit trace is nonempty. -/
theorem c6_config_error_timing_witness :
    exportFullT (fun _ _ => false) c6cfg c6tree =
      ([c6tree], .error "sort by must be set") ∧
    ([c6tree] : List (Tree PyVal)) ≠ [] :=
  c6_config_error_timing.2.2.1 (fun _ _ => false) c6cfg c6tree [c6tree]
    [("x", [PyVal.str "1"])] (by decide) (by decide) (by decide)
    (by simp [c6tree, exportNodeT, mergeIf])


/-- Like `c6cfg` but with a sort key configured, so the annotator itself
runs and fails on its missing schema header. -/
def c6cfg2 : Config :=
  ⟨some "DM", some "DOMAIN", some "Demographics", [], [], SortBy.one "x",
    PySortOrder.none, Annotators.one ⟨"SEQ", Option.none⟩, Option.none⟩

/-- Counterexample to C6 as stated: with valid domain settings, a
configured annotator whose header names no schema variable, and a sort
key, the export raises the annotator configuration error only after the
node graph has been traversed — the visit trace accompanying the error
already contains the visited leaf, so the error is not raised before
traversal begins. -/
theorem c6_counterexample :
    exportFullT (fun _ _ => false) c6cfg2 c6tree =
      ([c6tree], .error "a header must be set on the annotator") ∧
    ([c6tree] : List (Tree PyVal)) ≠ [] := by
  constructor
  · simp [c6cfg2, c6tree, exportFullT, domainInvalid, exportNodeT, mergeIf,
      postProcess, setScalar, addConstants, addMissing, aset, alookup,
      rowCount, applySort, sortByFalsy, sortKeys, sortDirection, dfRows,
      dfOfRows, rowAt, stableSort, rowLt, insertRow, annotateStep,
      annotatorsFalsy, seqAnnotate, List.find?, nth, Option.getD,
      show ("DM".isEmpty = false) from rfl,
      show ("x".isEmpty = false) from rfl]
  · simp


theorem alookup_map_constNone {α : Type} :
    ∀ (types : List String) (ty : String), ty ∈ types →
      alookup (types.map (fun t => (t, (Option.none : Option α)))) ty =
        some Option.none
  | [], ty, h => by simp at h
  | t0 :: rest, ty, h => by
    rw [List.map_cons, alookup]
    by_cases he : t0 = ty
    · rw [if_pos he]
    · rw [if_neg he]
      rcases List.mem_cons.1 h with h1 | h1
      · exact absurd h1.symm he
      · exact alookup_map_constNone rest ty h1

theorem fold_aset_absent {V : Type} :
    ∀ (l : List (Tree V)) (c : Cache) (ty : String),
      (∀ n ∈ l, n.ty ≠ ty) →
      alookup (l.foldl (fun c n => aset c n.ty (some n.nid)) c) ty =
        alookup c ty
  | [], c, ty, _ => rfl
  | n0 :: rest, c, ty, h => by
    rw [List.foldl_cons]
    rw [fold_aset_absent rest _ ty (fun n hn => h n (List.mem_cons_of_mem _ hn))]
    rw [alookup_aset]
    rw [if_neg (fun he => h n0 (List.mem_cons_self n0 rest) he.symm)]

/-- A two-node tree (a `"Study"` root over one `"Participant"` leaf) for
the C8 counterexample. -/
def c8root : Tree PyVal :=
  Tree.mk "Study" 0 [("a", PyVal.str "r")] false
    [Tree.mk "Participant" 1 [("x", PyVal.str "1")] true []]

/-- An exporter instance over `c8root` with the two types registered. -/
def c8exp : Exporter PyVal := mkExporter ["Study", "Participant"] c8root

/-- A plain valid configuration with no annotators or sort keys. -/
def c8cfg : Config :=
  ⟨some "DM", some "DOMAIN", some "Demographics", [], [], SortBy.none,
    PySortOrder.none, Annotators.none, Option.none⟩

/-- C8 (amended): the node cache is created once, by `__init__` — at
construction only the root's type maps to an instance (the root) and
every other registered type maps to no instance — but it is NOT
re-created per export call: `export` only folds the traversal's cache
updates into the instance's existing cache, so the exporter returned by
an export call keeps the old entry for every type the traversal did not
visit, and entries written by one call persist into the next. -/
theorem c8_cache_persistence :
    (∀ (types : List String) (root : Tree PyVal),
      alookup (mkExporter types root).cache root.ty =
        some (some root.nid) ∧
      ∀ ty ∈ types, ty ≠ root.ty →
        alookup (mkExporter types root).cache ty = some Option.none) ∧
    (∀ (lt : PyVal → PyVal → Bool) (cfg : Config) (E : Exporter PyVal)
      (tr : List (Tree PyVal)) (res : Except String DF)
      (E2 : Exporter PyVal),
      exportCall lt cfg E = (tr, res, E2) →
      E2.types = E.types ∧ E2.root = E.root ∧
      ∀ ty, (∀ n ∈ tr, n.ty ≠ ty) →
        alookup E2.cache ty = alookup E.cache ty) := by
  constructor
  · intro types root
    constructor
    · rw [mkExporter]
      rw [alookup_aset]
      rw [if_pos rfl]
    · intro ty hty hne
      rw [mkExporter]
      rw [alookup_aset]
      rw [if_neg hne]
      exact alookup_map_constNone types ty hty
  · intro lt cfg E tr res E2 h
    rw [exportCall] at h
    cases hfe : exportFullT lt cfg E.root with
    | mk tr0 res0 =>
      rw [hfe] at h
      dsimp only at h
      have htr : tr0 = tr := congrArg Prod.fst h
      have hrest := congrArg Prod.snd h
      have hres : res0 = res := congrArg Prod.fst hrest
      have hE2 : (⟨E.types, E.root,
          tr0.foldl (fun c n => aset c n.ty (some n.nid)) E.cache⟩ :
            Exporter PyVal) = E2 := congrArg Prod.snd hrest
      rw [← hE2]
      refine ⟨rfl, rfl, ?_⟩
      intro ty hty
      rw [htr] at *
      exact fold_aset_absent tr E.cache ty hty

/-- Witness for the amended claim C8 at a concrete exporter: freshness
at construction, and persistence of the untraversed type `"Crf"` across
an export call. -/
theorem c8_cache_persistence_witness :
    (alookup (mkExporter ["Study", "Participant"] c8root).cache
        c8root.ty = some (some c8root.nid) ∧
      ∀ ty ∈ ["Study", "Participant"], ty ≠ c8root.ty →
        alookup (mkExporter ["Study", "Participant"] c8root).cache ty =
          some Option.none) ∧
    ((exportCall (fun _ _ => false) c8cfg c8exp).2.2.types = c8exp.types ∧
      (exportCall (fun _ _ => false) c8cfg c8exp).2.2.root = c8exp.root ∧
      ∀ ty, (∀ n ∈ (exportCall (fun _ _ => false) c8cfg c8exp).1,
          n.ty ≠ ty) →
        alookup (exportCall (fun _ _ => false) c8cfg c8exp).2.2.cache ty =
          alookup c8exp.cache ty) :=
  ⟨c8_cache_persistence.1 ["Study", "Participant"] c8root,
    c8_cache_persistence.2 (fun _ _ => false) c8cfg c8exp
      (exportCall (fun _ _ => false) c8cfg c8exp).1
      (exportCall (fun _ _ => false) c8cfg c8exp).2.1
      (exportCall (fun _ _ => false) c8cfg c8exp).2.2 rfl⟩

/-- Counterexample to C8 as stated: after one export call on `c8exp`
the returned exporter's cache maps `"Participant"` to the visited
instance `1`, whereas a cache created fresh for the call would map it to
no instance; the cache entries persist across calls rather than being
discarded. -/
theorem c8_counterexample :
    alookup (exportCall (fun _ _ => false) c8cfg c8exp).2.2.cache
      "Participant" = some (some 1) ∧
    alookup c8exp.cache "Participant" = some Option.none ∧
    some (some 1) ≠ some (Option.none : Option Nat) := by
  refine ⟨?_, ?_, by decide⟩
  · simp [c8exp, c8root, c8cfg, exportCall, exportFullT, domainInvalid,
      exportNodeT, exportChildrenAuxT, mergeIf, extendTable, dextend,
      alookup, checkRowCount, goRC, broadcast, aset, mkExporter,
      Tree.ty, Tree.nid, keysOf,
      show ("DM".isEmpty = false) from rfl]
  · simp [c8exp, c8root, mkExporter, aset, alookup, Tree.ty, Tree.nid]


/-- A tree whose root type is `"Trial"` — no node of type `"Study"`
anywhere. -/
def c9root : Tree PyVal :=
  Tree.mk "Trial" 0 [("a", PyVal.str "r")] false
    [Tree.mk "Input" 1 [("x", PyVal.str "1")] true []]

/-- An exporter registered over the `"Trial"`/`"Input"` types only. -/
def c9exp : Exporter PyVal := mkExporter ["Trial"] c9root

/-- C9 (amended): structured-document export raises the configuration
error before traversal when no dataset label is configured; otherwise it
emits both study identifiers drawn from the cache entry for the type
named exactly `"Study"` — not the configured root type — together with
the `items` metadata array in schema order, the row-major `itemData`
array in schema-column order, and a record count equal to the reordered
table's row count; and when no type named `"Study"` has a cache entry
the export fails with a `KeyError` instead of emitting a document, even
though the configured root type has a cached instance. -/
theorem c9_structured_export :
    (∀ (lt : PyVal → PyVal → Bool) (cfg : Config) (E : Exporter PyVal),
      cfg.label = Option.none →
      exportToJsonT lt cfg E =
        ([], .error "label attribute is required for json export")) ∧
    (∀ (lt : PyVal → PyVal → Bool) (cfg : Config) (E : Exporter PyVal)
      (l : String) (tr : List (Tree PyVal)) (df : DF)
      (E2 : Exporter PyVal) (df2 : DF) (inst : Option Nat),
      cfg.label = some l →
      exportCall lt cfg E = (tr, .ok df, E2) →
      selectCols df (cfg.schema.map (·.oid)) = .ok df2 →
      alookup E2.cache "Study" = some inst →
      exportToJsonT lt cfg E = (tr, .ok
        ⟨inst, inst, "IG." ++ cfg.domain.getD "", cfg.domain.getD "", l,
          rowCount df2, cfg.schema.map mkItem,
          (dfRows df2).map (fun r => r.map (·.2))⟩)) ∧
    (∀ (lt : PyVal → PyVal → Bool) (cfg : Config) (E : Exporter PyVal)
      (l : String) (tr : List (Tree PyVal)) (df : DF)
      (E2 : Exporter PyVal) (df2 : DF),
      cfg.label = some l →
      exportCall lt cfg E = (tr, .ok df, E2) →
      selectCols df (cfg.schema.map (·.oid)) = .ok df2 →
      alookup E2.cache "Study" = Option.none →
      exportToJsonT lt cfg E = (tr, .error "KeyError: Study")) := by
  refine ⟨?_, ?_, ?_⟩
  · intro lt cfg E h
    rw [exportToJsonT, if_pos (by rw [h]; rfl)]
  · intro lt cfg E l tr df E2 df2 inst hl hcall hsel hcache
    rw [exportToJsonT, if_neg (by rw [hl]; simp)]
    rw [hcall]
    dsimp only
    rw [hsel]
    dsimp only
    rw [getStudyId, hcache]
    dsimp only
    rw [hl]
    rfl
  · intro lt cfg E l tr df E2 df2 hl hcall hsel hcache
    rw [exportToJsonT, if_neg (by rw [hl]; simp)]
    rw [hcall]
    dsimp only
    rw [hsel]
    dsimp only
    rw [getStudyId, hcache]

/-- Witness for the amended claim C9 at the concrete exporter `c8exp`
(whose root type is `"Study"`), with the empty schema: the emitted
document draws both identifiers from the cache's `"Study"` entry. -/
theorem c9_structured_export_witness :
    exportToJsonT (fun _ _ => false) c8cfg c8exp =
      ([c8root, Tree.mk "Participant" 1 [("x", PyVal.str "1")] true []],
        .ok ⟨some 0, some 0, "IG." ++ c8cfg.domain.getD "",
          c8cfg.domain.getD "", "Demographics", rowCount ([] : DF),
          c8cfg.schema.map mkItem,
          (dfRows []).map (fun r => r.map (·.2))⟩) :=
  c9_structured_export.2.1 (fun _ _ => false) c8cfg c8exp "Demographics"
    [c8root, Tree.mk "Participant" 1 [("x", PyVal.str "1")] true []]
    [] ⟨["Study", "Participant"], c8root,
      [("Study", some 0), ("Participant", some 1)]⟩ [] (some 0)
    rfl
    (by simp [c8exp, c8root, c8cfg, exportCall, exportFullT, domainInvalid,
      exportNodeT, exportChildrenAuxT, mergeIf, extendTable, dextend,
      alookup, checkRowCount, goRC, broadcast, aset, mkExporter,
      Tree.ty, Tree.nid, keysOf, postProcess, setScalar, addConstants,
      addMissing, rowCount, applySort, sortByFalsy, annotateStep,
      annotatorsFalsy, selectCols,
      show ("DM".isEmpty = false) from rfl])
    rfl
    rfl

/-- Counterexample to C9 as stated: on `c9exp`, whose configured root
type is `"Trial"` (with a cached instance `0` after the traversal), the
structured export does not emit a document with an identifier derived
from the root type's cache entry — it fails with `KeyError: Study`,
because `get_study_id` reads the cache entry of the hardcoded type name
`"Study"`. -/
theorem c9_counterexample :
    exportToJsonT (fun _ _ => false) c8cfg c9exp =
      ([c9root, Tree.mk "Input" 1 [("x", PyVal.str "1")] true []],
        .error "KeyError: Study") ∧
    alookup (exportCall (fun _ _ => false) c8cfg c9exp).2.2.cache
      "Trial" = some (some 0) := by
  constructor
  · simp [c9exp, c9root, c8cfg, exportToJsonT, exportCall, exportFullT,
      domainInvalid, exportNodeT, exportChildrenAuxT, mergeIf,
      extendTable, dextend, alookup, checkRowCount, goRC, broadcast,
      aset, mkExporter, Tree.ty, Tree.nid, keysOf, postProcess,
      setScalar, addConstants, addMissing, rowCount, applySort,
      sortByFalsy, annotateStep, annotatorsFalsy, selectCols,
      getStudyId, show ("DM".isEmpty = false) from rfl]
  · simp [c9exp, c9root, c8cfg, exportCall, exportFullT, domainInvalid,
      exportNodeT, exportChildrenAuxT, mergeIf, extendTable, dextend,
      alookup, checkRowCount, goRC, broadcast, aset, mkExporter,
      Tree.ty, Tree.nid, keysOf,
      show ("DM".isEmpty = false) from rfl]

end SDTM
